import Mathlib

/-!
# Thread_Pool: a fixed-size worker pool over a hand-rolled linked FIFO queue

Shallow embedding of `src/Tread_pool.C`.

The pool is a transition system.  One transition is one maximal piece of a
member function that runs without blocking: a lock acquisition together with
the code executed up to the next point where the thread can block again.

* `ThreadPool::enqueue` is two transitions, `enqueue_link` and
  `enqueue_count`, because it acquires `state_mutex` while still holding
  `queue_mutex` (lines 70 and 79).
* `ThreadPool::wait_for_completion` is four kinds of transition:
  `wait_for_completion_wait` (passing the wait at line 90),
  `wait_for_completion_stop` (lines 93-97), `wait_for_completion_join` (one
  iteration of the loop) and `wait_for_completion_return` (which releases
  `state_mutex`, held since line 89).
* `ThreadPool::worker_thread` is four kinds of transition:
  `worker_thread_take` (the dequeue, lines 111-125), `worker_thread_exit`
  (the return at line 115), `worker_thread_run` (the call `task()` at line
  127) and `worker_thread_done` (the decrement, lines 129-135).

A `condition_variable::wait(lock, pred)` is `while (!pred()) wait(lock)`, so a
thread gets past it exactly in a state where it holds the lock and `pred`
holds; a thread that finds `pred` false changes nothing.  Notifications are
therefore not part of the state.

`head`, `tail`, `stop_flag` and the nodes are only accessed under
`queue_mutex`, and `active_tasks` only under `state_mutex`, so the program
has no data race and its behaviours are the interleavings of these
transitions.

Across transitions `queue_mutex` is held only by a thread between the two
halves of `enqueue`, and `state_mutex` only by a thread inside
`wait_for_completion`; every other critical section is inside one transition.
Threads that are outside the pool's functions, or blocked at the entry of
one, have no state of their own: any number of them may exist.
-/

namespace Tread_pool

/-! ## Data model -/

/-- Modulus of `size_t` arithmetic (64-bit target). -/
def SIZE_MOD : Nat := 18446744073709551616

/-- A non-null `Node*`; `nullptr` is `none` in `Option Addr`. -/
abbrev Addr := Nat

/-- The `struct Node` of lines 27-31. -/
structure Node (Task : Type) where
  task : Task
  next : Option Addr

/-- Where a worker thread stands inside `worker_thread`. -/
inductive WorkerPc (Task : Type) where
  /-- at lines 111-112: about to lock `queue_mutex`, or blocked in the wait -/
  | waiting : WorkerPc Task
  /-- at line 127: left the critical section with `task`, `task()` not yet run -/
  | holding (task : Task) : WorkerPc Task
  /-- at line 129: `task()` has returned, the decrement is still to come -/
  | finished : WorkerPc Task
  /-- returned at line 115 -/
  | exited : WorkerPc Task
  deriving DecidableEq, Repr

/-- Where the thread that holds `state_mutex` stands inside
`wait_for_completion`. -/
inductive DrainPc where
  /-- no thread is past line 90 -/
  | outside : DrainPc
  /-- past line 90, before line 94 -/
  | stopping : DrainPc
  /-- at the loop test of line 99 with loop variable `i` -/
  | joining (i : Nat) : DrainPc
  deriving DecidableEq, Repr

/-- A `ThreadPool` object together with its threads.

`heap` holds the `Node` objects that are linked into the queue and not yet
deleted.  `head` to `thread_count` are the data
members (`joinable` is `threads[i].joinable()`).  `workers` and `drain` are
the program counters.  `submitted`, `dequeued`, `executed`, `joins` and
`returns` are history variables: they record what happened and are never
read by a transition. -/
structure State (Task : Type) where
  heap : Addr → Option (Node Task)
  head : Option Addr
  tail : Option Addr
  queue_mutex : Bool
  stop_flag : Bool
  active_tasks : Nat
  state_mutex : Bool
  joinable : List Bool
  thread_count : Nat
  workers : List (WorkerPc Task)
  drain : DrainPc
  submitted : List Task
  dequeued : List Task
  executed : List Task
  joins : List Nat
  returns : Nat

/-- What a constructor call produces.  The body of lines 51-58 contains no
check and no `throw`; resource exhaustion in `new` or `std::thread` is outside
the model. -/
inductive Constructed (Task : Type) where
  | configuration_error : Constructed Task
  | pool (s : State Task) : Constructed Task

variable {Task : Type}

/-- The state at the end of the constructor (lines 51-58): empty queue, flag
false, counter 0, `num_threads` started workers, every `threads[i]` joinable. -/
def init (num_threads : Nat) : State Task :=
  { heap := fun _ => none
    head := none
    tail := none
    queue_mutex := false
    stop_flag := false
    active_tasks := 0
    state_mutex := false
    joinable := List.replicate num_threads true
    thread_count := num_threads
    workers := List.replicate num_threads WorkerPc.waiting
    drain := DrainPc.outside
    submitted := []
    dequeued := []
    executed := []
    joins := []
    returns := 0 }

/-- `ThreadPool::ThreadPool(size_t num_threads)`, lines 51-58. -/
def ThreadPool (num_threads : Nat) : Constructed Task :=
  Constructed.pool (init num_threads)

/-! ## Transitions -/

/-- `enqueue`, lines 68-77: allocate the node, lock `queue_mutex`, link the
node at the tail.  `new_node` is the address returned by `new`, which is an
address that holds no live object.  The thread keeps `queue_mutex`. -/
def enqueue_link (s : State Task) (new_node : Addr) (task : Task) : Option (State Task) :=
  match s.queue_mutex, s.heap new_node with
  | false, none =>
    match s.tail with
    | none =>
      some { s with
        heap := Function.update s.heap new_node (some ⟨task, none⟩)
        head := some new_node
        tail := some new_node
        queue_mutex := true
        submitted := s.submitted ++ [task] }
    | some t =>
      match s.heap t with
      | none => none
      | some last =>
        some { s with
          heap := Function.update
            (Function.update s.heap t (some ⟨last.task, some new_node⟩))
            new_node (some ⟨task, none⟩)
          tail := some new_node
          queue_mutex := true
          submitted := s.submitted ++ [task] }
  | _, _ => none

/-- `enqueue`, lines 78-82: lock `state_mutex`, `++active_tasks`, release both
mutexes. -/
def enqueue_count (s : State Task) : Option (State Task) :=
  match s.queue_mutex, s.state_mutex with
  | true, false =>
    some { s with
      active_tasks := (s.active_tasks + 1) % SIZE_MOD
      queue_mutex := false }
  | _, _ => none

/-- `wait_for_completion`, lines 89-90: the caller holds `state_mutex` and has
seen `active_tasks == 0`. -/
def wait_for_completion_wait (s : State Task) : Option (State Task) :=
  match s.state_mutex, s.active_tasks with
  | false, 0 => some { s with state_mutex := true, drain := DrainPc.stopping }
  | _, _ => none

/-- `wait_for_completion`, lines 93-97: lock `queue_mutex`, set `stop_flag`,
unlock. -/
def wait_for_completion_stop (s : State Task) : Option (State Task) :=
  match s.drain, s.queue_mutex with
  | DrainPc.stopping, false =>
    some { s with stop_flag := true, drain := DrainPc.joining 0 }
  | _, _ => none

/-- `wait_for_completion`, lines 99-103: one iteration of the loop.  `join`
returns once the worker has returned from `worker_thread`, and leaves
`threads[i]` not joinable. -/
def wait_for_completion_join (s : State Task) : Option (State Task) :=
  match s.drain with
  | DrainPc.joining i =>
    if i < s.thread_count then
      match s.joinable[i]? with
      | some true =>
        match s.workers[i]? with
        | some WorkerPc.exited =>
          some { s with
            joinable := s.joinable.set i false
            joins := s.joins ++ [i]
            drain := DrainPc.joining (i + 1) }
        | _ => none
      | some false => some { s with drain := DrainPc.joining (i + 1) }
      | none => none
    else none
  | _ => none

/-- `wait_for_completion`, line 104: the loop test fails, the function
returns and `lock` releases `state_mutex`. -/
def wait_for_completion_return (s : State Task) : Option (State Task) :=
  match s.drain with
  | DrainPc.joining i =>
    if i < s.thread_count then none
    else some { s with
      state_mutex := false
      drain := DrainPc.outside
      returns := s.returns + 1 }
  | _ => none

/-- `worker_thread`, lines 111-125 with a non-empty queue: unlink the head
node, copy its task, delete it. -/
def worker_thread_take (s : State Task) (i : Nat) : Option (State Task) :=
  match s.workers[i]?, s.queue_mutex, s.head with
  | some WorkerPc.waiting, false, some a =>
    match s.heap a with
    | none => none
    | some node =>
      some { s with
        heap := Function.update s.heap a none
        head := node.next
        tail := match node.next with
          | none => none
          | some _ => s.tail
        workers := s.workers.set i (WorkerPc.holding node.task)
        dequeued := s.dequeued ++ [node.task] }
  | _, _, _ => none

/-- `worker_thread`, lines 111-115 with `stop_flag && head == nullptr`. -/
def worker_thread_exit (s : State Task) (i : Nat) : Option (State Task) :=
  match s.workers[i]?, s.queue_mutex, s.head, s.stop_flag with
  | some WorkerPc.waiting, false, none, true =>
    some { s with workers := s.workers.set i WorkerPc.exited }
  | _, _, _, _ => none

/-- `worker_thread`, line 127: the call `task()` from start to return. -/
def worker_thread_run (s : State Task) (i : Nat) : Option (State Task) :=
  match s.workers[i]? with
  | some (WorkerPc.holding task) =>
    some { s with
      workers := s.workers.set i WorkerPc.finished
      executed := s.executed ++ [task] }
  | _ => none

/-- `worker_thread`, lines 129-135: lock `state_mutex`, `--active_tasks` (on a
`size_t`, so 0 wraps to `SIZE_MOD - 1`), unlock. -/
def worker_thread_done (s : State Task) (i : Nat) : Option (State Task) :=
  match s.workers[i]?, s.state_mutex with
  | some WorkerPc.finished, false =>
    some { s with
      active_tasks := (s.active_tasks + SIZE_MOD - 1) % SIZE_MOD
      workers := s.workers.set i WorkerPc.waiting }
  | _, _ => none

/-- The transitions of the system, named after the thread that takes them:
a producer inside `enqueue`, the caller of `wait_for_completion` ("drain"),
or worker `i`. -/
inductive Step (Task : Type) where
  | enqueue_link (new_node : Addr) (task : Task) : Step Task
  | enqueue_count : Step Task
  | drain_wait : Step Task
  | drain_stop : Step Task
  | drain_join : Step Task
  | drain_return : Step Task
  | worker_take (i : Nat) : Step Task
  | worker_exit (i : Nat) : Step Task
  | worker_run (i : Nat) : Step Task
  | worker_done (i : Nat) : Step Task
  deriving DecidableEq, Repr

/-- One transition; `none` when the transition is not enabled in `s`. -/
def step (s : State Task) : Step Task → Option (State Task)
  | Step.enqueue_link a t => enqueue_link s a t
  | Step.enqueue_count => enqueue_count s
  | Step.drain_wait => wait_for_completion_wait s
  | Step.drain_stop => wait_for_completion_stop s
  | Step.drain_join => wait_for_completion_join s
  | Step.drain_return => wait_for_completion_return s
  | Step.worker_take i => worker_thread_take s i
  | Step.worker_exit i => worker_thread_exit s i
  | Step.worker_run i => worker_thread_run s i
  | Step.worker_done i => worker_thread_done s i

/-- Run a schedule; `none` when some transition of it is not enabled. -/
def run (s : State Task) : List (Step Task) → Option (State Task)
  | [] => some s
  | e :: es =>
    match step s e with
    | none => none
    | some s1 => run s1 es

/-- A worker between its dequeue and its decrement. -/
def WorkerPc.isBusy : WorkerPc Task → Bool
  | WorkerPc.holding _ => true
  | WorkerPc.finished => true
  | _ => false

/-- The task a worker has dequeued and not yet called. -/
def WorkerPc.heldTask : WorkerPc Task → Option Task
  | WorkerPc.holding t => some t
  | _ => none

/-- The number of workers between their dequeue and their decrement. -/
def busy (s : State Task) : Nat :=
  s.workers.countP WorkerPc.isBusy

/-- The tasks dequeued by workers that have not yet called them. -/
def held (s : State Task) : List Task :=
  s.workers.filterMap WorkerPc.heldTask

/-- The tasks passed to `enqueue` by a schedule, in the order of their link
steps. -/
def enqueued_tasks : List (Step Task) → List Task
  | [] => []
  | Step.enqueue_link _ t :: es => t :: enqueued_tasks es
  | _ :: es => enqueued_tasks es

/-- The schedule of one call of `wait_for_completion` on a pool of
`thread_count` workers that no other thread interrupts. -/
def wait_for_completion_call (thread_count : Nat) : List (Step Task) :=
  [Step.drain_wait, Step.drain_stop] ++ List.replicate thread_count Step.drain_join ++
    [Step.drain_return]

/-- The list `q` of (address, task) pairs is what following `next` pointers
from `cur` visits, ending at `nullptr`. -/
def IsQueue (heap : Addr → Option (Node Task)) : Option Addr → List (Addr × Task) → Prop
  | cur, [] => cur = none
  | cur, (a, t) :: rest => cur = some a ∧ ∃ nx, heap a = some ⟨t, nx⟩ ∧ IsQueue heap nx rest

/-- The shared state after the executed tasks ran one after the other, each
`task()` being one atomic update `exec task` of it. -/
def world {W : Type} (exec : Task → W → W) (w0 : W) (s : State Task) : W :=
  s.executed.foldl (fun w t => exec t w) w0

/-! ## Block partition of the benchmark drivers -/

/-- The constant of line 13. -/
def ARRAY_SIZE : Nat := 100000000

/-- `count_primes_with_threadpool`, lines 252 and 265-266: the pair
`(start, end)` of iteration `t`, in `size_t` arithmetic. -/
def count_primes_with_threadpool_range (pool_size t : Nat) : Nat × Nat :=
  let kolvo_tasks := pool_size
  let block_size := ARRAY_SIZE / pool_size
  let start := (t * block_size) % SIZE_MOD
  let stop := if t = (kolvo_tasks + SIZE_MOD - 1) % SIZE_MOD then ARRAY_SIZE
    else (start + block_size) % SIZE_MOD
  (start, stop)

/-- `count_primes_multi_thread`, lines 199 and 209-210: the pair
`(start_idx, end_idx)` of iteration `t`, in `size_t` arithmetic. -/
def count_primes_multi_thread_range (thread_count t : Nat) : Nat × Nat :=
  let block_size := ARRAY_SIZE / thread_count
  let start_idx := (t * block_size) % SIZE_MOD
  let end_idx := if t = (thread_count + SIZE_MOD - 1) % SIZE_MOD then ARRAY_SIZE
    else (start_idx + block_size) % SIZE_MOD
  (start_idx, end_idx)

/-! ## Abstract queue, invariants and sample schedules

Specification-level definitions: none of them is part of the program. -/

/-- The abstract queue after a transition. -/
def next_queue (q : List (Addr × Task)) : Step Task → List (Addr × Task)
  | Step.enqueue_link a t => q ++ [(a, t)]
  | Step.worker_take _ => q.tail
  | _ => q

/-- The abstract queue after a schedule, starting from `q`. -/
def queue_after (q : List (Addr × Task)) : List (Step Task) → List (Addr × Task)
  | [] => q
  | e :: es => queue_after (next_queue q e) es

/-- The heap, `head`, `tail` and the two logs represent the abstract queue. -/
structure QueueInv (s : State Task) (q : List (Addr × Task)) : Prop where
  chain : IsQueue s.heap s.head q
  nodup : (q.map Prod.fst).Nodup
  live : ∀ a, s.heap a ≠ none ↔ a ∈ q.map Prod.fst
  tail_eq : s.tail = (q.map Prod.fst).getLast?
  fifo : s.submitted = s.dequeued ++ q.map Prod.snd

/-- The counter agrees, modulo the width of `size_t`, with the number of
queued nodes plus the number of busy workers, the node of a producer that
still holds `queue_mutex` not being counted yet. -/
structure CounterInv (s : State Task) (q : List (Addr × Task)) : Prop where
  counter : (s.active_tasks + (if s.queue_mutex = true then 1 else 0)) % SIZE_MOD =
    (q.length + busy s) % SIZE_MOD
  counter_lt : s.active_tasks < SIZE_MOD
  in_cs : s.queue_mutex = true → q ≠ []

/-- Every dequeued task has been executed or is held by a worker; with a
single worker the dequeue order is the execution order. -/
structure LogInv (s : State Task) : Prop where
  perm : List.Perm s.dequeued (s.executed ++ held s)
  serial : s.workers.length = 1 → s.dequeued = s.executed ++ held s

/-- Facts about `state_mutex`, the join loop and the stop flag. -/
structure DrainInv (s : State Task) : Prop where
  mutex_pc : s.state_mutex = true ↔ s.drain ≠ DrainPc.outside
  len_w : s.workers.length = s.thread_count
  len_j : s.joinable.length = s.thread_count
  drained : s.state_mutex = true → s.active_tasks = 0
  joined_exited : ∀ j : Nat, s.joinable[j]? = some false → s.workers[j]? = some WorkerPc.exited
  joins_nodup : s.joins.Nodup
  joins_iff : ∀ j : Nat, j ∈ s.joins ↔ s.joinable[j]? = some false
  join_progress : ∀ i, s.drain = DrainPc.joining i →
    ∀ j, j < i → j < s.thread_count → s.joinable[j]? = some false
  stop_of_join : ∀ i, s.drain = DrainPc.joining i → s.stop_flag = true
  stop_of_return : 0 < s.returns → s.stop_flag = true
  returned : 0 < s.returns → ∀ j, j < s.thread_count → s.joinable[j]? = some false
  stop_origin : s.stop_flag = true → (∃ i, s.drain = DrainPc.joining i) ∨ 0 < s.returns
  exited_stop : ∀ j : Nat, s.workers[j]? = some WorkerPc.exited → s.stop_flag = true

/-- All invariants together, relative to the abstract queue `q`. -/
structure Inv (s : State Task) (q : List (Addr × Task)) : Prop where
  queue : QueueInv s q
  count : CounterInv s q
  log : LogInv s
  drain : DrainInv s

/-- The state of a caller inside the join loop of `wait_for_completion`. -/
def at_join (s : State Task) (i : Nat) : State Task :=
  { s with state_mutex := true, stop_flag := true, drain := DrainPc.joining i }

/-- Whether a caller at this point of `wait_for_completion` holds
`state_mutex`. -/
def DrainPc.held : DrainPc → Bool
  | DrainPc.outside => false
  | _ => true

/-- The state `s` after `k` further returns of `wait_for_completion`, with a
caller at point `d`. -/
def during (s : State Task) (k : Nat) (d : DrainPc) : State Task :=
  { s with state_mutex := d.held, drain := d, returns := s.returns + k }

/-- The steps that take a call of `wait_for_completion` from point `d` to its
return; from `outside` it is a whole call. -/
def call_rest (thread_count : Nat) : DrainPc → List (Step Task)
  | DrainPc.outside => wait_for_completion_call thread_count
  | DrainPc.stopping =>
    [Step.drain_stop] ++ List.replicate thread_count Step.drain_join ++ [Step.drain_return]
  | DrainPc.joining i =>
    List.replicate (thread_count - i) Step.drain_join ++ [Step.drain_return]

/-- A pool that has been drained and holds no pending work: the flag is set,
`queue_mutex` is free, the counter is 0, every `threads[i]` has been joined
and every worker has left. -/
structure Drained (s : State Task) : Prop where
  stop : s.stop_flag = true
  queue_free : s.queue_mutex = false
  idle : s.active_tasks = 0
  joined : ∀ j : Nat, j < s.thread_count → s.joinable[j]? = some false
  gone : ∀ (i : Nat) (w : WorkerPc Task), s.workers[i]? = some w → w = WorkerPc.exited

/-- Once some worker has left its loop, the queue is empty. -/
def ExitedEmpty (s : State Task) : Prop :=
  (∃ i : Nat, s.workers[i]? = some WorkerPc.exited) → s.head = none

/-- The state in which a producer has linked its node and holds
`queue_mutex`, and a caller of `wait_for_completion` has seen
`active_tasks == 0` and holds `state_mutex`. -/
def stalled (n : Nat) (a : Addr) (t : Task) : State Task :=
  { (init n : State Task) with
    heap := Function.update (fun _ => none) a (some ⟨t, none⟩)
    head := some a
    tail := some a
    queue_mutex := true
    state_mutex := true
    drain := DrainPc.stopping
    submitted := [t] }

/-- The worker finishes both tasks, the drain stops and joins it. -/
def demo_post : List (Step Nat) :=
  [Step.worker_done 0, Step.worker_take 0, Step.worker_run 0, Step.worker_done 0,
    Step.drain_wait, Step.drain_stop, Step.worker_exit 0, Step.drain_join]

/-- Two tasks are submitted and no worker has moved yet. -/
def demo_submit : List (Step Nat) :=
  [Step.enqueue_link 5 70, Step.enqueue_count, Step.enqueue_link 6 80, Step.enqueue_count]

/-- The state after `demo_submit`. -/
def demo_queued : State Nat := (run (init 1) demo_submit).getD (init 1)

/-- The state after `demo_submit` and the first dequeue. -/
def demo_taken : State Nat := (worker_thread_take demo_queued 0).getD (init 1)

/-- Two tasks are submitted and the single worker has run the first. -/
def demo_pre : List (Step Nat) :=
  demo_submit ++ [Step.worker_take 0, Step.worker_run 0]

/-- The state after `demo_pre`. -/
def demo_mid : State Nat := (run (init 1) demo_pre).getD (init 1)

/-- The state after `demo_pre`, `demo_post` and the return of the drain. -/
def demo_end : State Nat := (run demo_mid (demo_post ++ [Step.drain_return])).getD (init 1)

/-- A producer links a node after the last worker has left and before the
drain returns. -/
def racing_schedule : List (Step Nat) :=
  [Step.drain_wait, Step.drain_stop, Step.worker_exit 0, Step.enqueue_link 5 70,
    Step.drain_join]

/-- A task is submitted after the drain has returned. -/
def late_schedule : List (Step Nat) :=
  [Step.drain_wait, Step.drain_stop, Step.worker_exit 0, Step.drain_join, Step.drain_return,
    Step.enqueue_link 5 70, Step.enqueue_count]

/-- The state after `late_schedule`. -/
def late_state : State Nat := (run (init 1) late_schedule).getD (init 1)

/-- On the drained pool `demo_end` a second call has passed its wait. -/
def demo_called : State Nat := (run demo_end [Step.drain_wait]).getD (init 1)

/-- On the drained pool `demo_end` a second call passes its wait and a
producer then links a node. -/
def racing_second : State Nat :=
  (run demo_end [Step.drain_wait, Step.enqueue_link 7 90]).getD (init 1)

/-! # Theorems -/

/-! ## Block partition -/

theorem size_mod_pos : 0 < SIZE_MOD := by decide

theorem array_size_lt : ARRAY_SIZE < SIZE_MOD := by decide

theorem pred_mod (n : Nat) (h1 : 1 ≤ n) (h2 : n < SIZE_MOD) :
    (n + SIZE_MOD - 1) % SIZE_MOD = n - 1 := by
  have : n + SIZE_MOD - 1 = (n - 1) + SIZE_MOD := by omega
  rw [this, Nat.add_mod_right, Nat.mod_eq_of_lt (by omega)]

theorem block_mul_le (n t : Nat) (ht : t ≤ n) : t * (ARRAY_SIZE / n) ≤ ARRAY_SIZE :=
  le_trans (Nat.mul_le_mul_right _ ht) (Nat.mul_div_le ARRAY_SIZE n)

/-- Inside the loop the `size_t` operations do not wrap. -/
theorem threadpool_range_eq (n t : Nat) (h1 : 1 ≤ n) (h2 : n < SIZE_MOD) (ht : t < n) :
    count_primes_with_threadpool_range n t =
      (t * (ARRAY_SIZE / n), if t = n - 1 then ARRAY_SIZE else (t + 1) * (ARRAY_SIZE / n)) := by
  have ha := array_size_lt
  have hs : t * (ARRAY_SIZE / n) ≤ ARRAY_SIZE := block_mul_le n t (le_of_lt ht)
  have he : (t + 1) * (ARRAY_SIZE / n) ≤ ARRAY_SIZE := block_mul_le n (t + 1) ht
  have he2 : (t + 1) * (ARRAY_SIZE / n) = t * (ARRAY_SIZE / n) + ARRAY_SIZE / n := by ring
  simp only [count_primes_with_threadpool_range, pred_mod n h1 h2]
  rw [Nat.mod_eq_of_lt (lt_of_le_of_lt hs ha), ← he2, Nat.mod_eq_of_lt (lt_of_le_of_lt he ha)]

theorem block_exists (n i : Nat) (h1 : 1 ≤ n) (hi : i < ARRAY_SIZE) :
    ∃ t, t < n ∧ t * (ARRAY_SIZE / n) ≤ i ∧
      i < (if t = n - 1 then ARRAY_SIZE else (t + 1) * (ARRAY_SIZE / n)) := by
  by_cases hlt : 0 < ARRAY_SIZE / n ∧ i / (ARRAY_SIZE / n) < n - 1
  · obtain ⟨hb, hlt⟩ := hlt
    refine ⟨i / (ARRAY_SIZE / n), by omega, Nat.div_mul_le_self _ _, ?_⟩
    rw [if_neg (by omega), Nat.mul_comm]
    exact Nat.lt_mul_div_succ i hb
  · refine ⟨n - 1, by omega, ?_, by simp [hi]⟩
    rcases Nat.eq_zero_or_pos (ARRAY_SIZE / n) with h0 | h0
    · rw [h0]; simp
    · have h3 : n - 1 ≤ i / (ARRAY_SIZE / n) := by omega
      exact le_trans (Nat.mul_le_mul_right _ h3) (Nat.div_mul_le_self _ _)

theorem block_disjoint (n i t u : Nat) (hu : u < n) (htu : t < u)
    (h : i < (if t = n - 1 then ARRAY_SIZE else (t + 1) * (ARRAY_SIZE / n)))
    (h2 : u * (ARRAY_SIZE / n) ≤ i) : False := by
  rw [if_neg (by omega)] at h
  have : (t + 1) * (ARRAY_SIZE / n) ≤ u * (ARRAY_SIZE / n) := Nat.mul_le_mul_right _ htu
  omega

/-- C10. For every `pool_size` from 1 up (a `size_t`), the ranges
`[start, end)` that `count_primes_with_threadpool` computes for
`t = 0 .. pool_size - 1` begin at 0, are consecutive (`end` of block `t` is
`start` of block `t + 1`), end at `ARRAY_SIZE`, hence every index below
`ARRAY_SIZE` lies in exactly one block; `count_primes_multi_thread` computes
the same ranges. -/
theorem block_partition_covers (pool_size : Nat) (h1 : 1 ≤ pool_size)
    (h2 : pool_size < SIZE_MOD) :
    (count_primes_with_threadpool_range pool_size 0).1 = 0 ∧
    (∀ t, t + 1 < pool_size →
      (count_primes_with_threadpool_range pool_size t).2 =
        (count_primes_with_threadpool_range pool_size (t + 1)).1) ∧
    (count_primes_with_threadpool_range pool_size (pool_size - 1)).2 = ARRAY_SIZE ∧
    (∀ i, i < ARRAY_SIZE →
      ∃! t, t < pool_size ∧ (count_primes_with_threadpool_range pool_size t).1 ≤ i ∧
        i < (count_primes_with_threadpool_range pool_size t).2) ∧
    (∀ t, count_primes_multi_thread_range pool_size t =
      count_primes_with_threadpool_range pool_size t) := by
  refine ⟨?_, ?_, ?_, ?_, fun t => rfl⟩
  · rw [threadpool_range_eq pool_size 0 h1 h2 (by omega)]; simp
  · intro t ht
    rw [threadpool_range_eq pool_size t h1 h2 (by omega),
      threadpool_range_eq pool_size (t + 1) h1 h2 ht]
    simp only
    rw [if_neg (by omega)]
  · rw [threadpool_range_eq pool_size (pool_size - 1) h1 h2 (by omega)]; simp
  · intro i hi
    obtain ⟨t, ht, hs, he⟩ := block_exists pool_size i h1 hi
    refine ⟨t, ⟨ht, ?_, ?_⟩, ?_⟩
    · rw [threadpool_range_eq pool_size t h1 h2 ht]; exact hs
    · rw [threadpool_range_eq pool_size t h1 h2 ht]; exact he
    · rintro u ⟨hu, hus, hue⟩
      rw [threadpool_range_eq pool_size u h1 h2 hu] at hus hue
      simp only at hus hue
      rcases Nat.lt_trichotomy u t with hlt | heq | hgt
      · exact (block_disjoint pool_size i u t ht hlt hue hs).elim
      · exact heq
      · exact (block_disjoint pool_size i t u hu hgt he hus).elim

theorem block_partition_covers_witness :
    (1 ≤ 3 ∧ 3 < SIZE_MOD) ∧
    (count_primes_with_threadpool_range 3 0).1 = 0 ∧
    (∀ t, t + 1 < 3 →
      (count_primes_with_threadpool_range 3 t).2 =
        (count_primes_with_threadpool_range 3 (t + 1)).1) ∧
    (count_primes_with_threadpool_range 3 (3 - 1)).2 = ARRAY_SIZE ∧
    (∀ i, i < ARRAY_SIZE →
      ∃! t, t < 3 ∧ (count_primes_with_threadpool_range 3 t).1 ≤ i ∧
        i < (count_primes_with_threadpool_range 3 t).2) ∧
    (∀ t, count_primes_multi_thread_range 3 t =
      count_primes_with_threadpool_range 3 t) :=
  ⟨by decide, block_partition_covers 3 (by decide) (by decide)⟩

/-! ## What an enabled transition tells -/

theorem enqueue_link_spec {a : Addr} {task : Task} (h : enqueue_link s a task = some s') :
    s.queue_mutex = false ∧ s.heap a = none ∧
    ((s.tail = none ∧ s' = { s with
        heap := Function.update s.heap a (some ⟨task, none⟩)
        head := some a
        tail := some a
        queue_mutex := true
        submitted := s.submitted ++ [task] }) ∨
     (∃ t last, s.tail = some t ∧ s.heap t = some last ∧ s' = { s with
        heap := Function.update (Function.update s.heap t (some ⟨last.task, some a⟩))
          a (some ⟨task, none⟩)
        tail := some a
        queue_mutex := true
        submitted := s.submitted ++ [task] })) := by
  unfold enqueue_link at h
  split at h
  · rename_i hq hh
    refine ⟨hq, hh, ?_⟩
    split at h
    · rename_i ht
      left
      exact ⟨ht, (Option.some.inj h).symm⟩
    · rename_i t ht
      split at h
      · exact absurd h (by simp)
      · rename_i last hl
        right
        exact ⟨t, last, ht, hl, (Option.some.inj h).symm⟩
  · exact absurd h (by simp)

theorem enqueue_count_spec (h : enqueue_count s = some s') :
    s.queue_mutex = true ∧ s.state_mutex = false ∧
    s' = { s with active_tasks := (s.active_tasks + 1) % SIZE_MOD, queue_mutex := false } := by
  unfold enqueue_count at h
  split at h
  · rename_i hq hs
    exact ⟨hq, hs, (Option.some.inj h).symm⟩
  · exact absurd h (by simp)

theorem drain_wait_spec (h : wait_for_completion_wait s = some s') :
    s.state_mutex = false ∧ s.active_tasks = 0 ∧
    s' = { s with state_mutex := true, drain := DrainPc.stopping } := by
  unfold wait_for_completion_wait at h
  split at h
  · rename_i hs ha
    exact ⟨hs, ha, (Option.some.inj h).symm⟩
  · exact absurd h (by simp)

theorem drain_stop_spec (h : wait_for_completion_stop s = some s') :
    s.drain = DrainPc.stopping ∧ s.queue_mutex = false ∧
    s' = { s with stop_flag := true, drain := DrainPc.joining 0 } := by
  unfold wait_for_completion_stop at h
  split at h
  · rename_i hd hq
    exact ⟨hd, hq, (Option.some.inj h).symm⟩
  · exact absurd h (by simp)

theorem drain_join_spec (h : wait_for_completion_join s = some s') :
    ∃ i, s.drain = DrainPc.joining i ∧ i < s.thread_count ∧
    ((s.joinable[i]? = some true ∧ s.workers[i]? = some WorkerPc.exited ∧
        s' = { s with
          joinable := s.joinable.set i false
          joins := s.joins ++ [i]
          drain := DrainPc.joining (i + 1) }) ∨
     (s.joinable[i]? = some false ∧ s' = { s with drain := DrainPc.joining (i + 1) })) := by
  unfold wait_for_completion_join at h
  split at h
  · rename_i i hd
    split at h
    · rename_i hi
      refine ⟨i, hd, hi, ?_⟩
      split at h
      · rename_i hj
        split at h
        · rename_i hw
          left
          exact ⟨hj, hw, (Option.some.inj h).symm⟩
        · exact absurd h (by simp)
      · rename_i hj
        right
        exact ⟨hj, (Option.some.inj h).symm⟩
      · exact absurd h (by simp)
    · exact absurd h (by simp)
  · exact absurd h (by simp)

theorem drain_return_spec (h : wait_for_completion_return s = some s') :
    ∃ i, s.drain = DrainPc.joining i ∧ ¬ i < s.thread_count ∧
    s' = { s with
      state_mutex := false
      drain := DrainPc.outside
      returns := s.returns + 1 } := by
  unfold wait_for_completion_return at h
  split at h
  · rename_i i hd
    split at h
    · exact absurd h (by simp)
    · rename_i hi
      exact ⟨i, hd, hi, (Option.some.inj h).symm⟩
  · exact absurd h (by simp)

theorem worker_take_spec {i : Nat} (h : worker_thread_take s i = some s') :
    s.workers[i]? = some WorkerPc.waiting ∧ s.queue_mutex = false ∧
    ∃ a node, s.head = some a ∧ s.heap a = some node ∧
    s' = { s with
      heap := Function.update s.heap a none
      head := node.next
      tail := match node.next with
        | none => none
        | some _ => s.tail
      workers := s.workers.set i (WorkerPc.holding node.task)
      dequeued := s.dequeued ++ [node.task] } := by
  unfold worker_thread_take at h
  split at h
  · rename_i a hw hq hh
    split at h
    · exact absurd h (by simp)
    · rename_i node hn
      exact ⟨hw, hq, a, node, hh, hn, (Option.some.inj h).symm⟩
  · exact absurd h (by simp)

theorem worker_exit_spec {i : Nat} (h : worker_thread_exit s i = some s') :
    s.workers[i]? = some WorkerPc.waiting ∧ s.queue_mutex = false ∧ s.head = none ∧
    s.stop_flag = true ∧ s' = { s with workers := s.workers.set i WorkerPc.exited } := by
  unfold worker_thread_exit at h
  split at h
  · rename_i hw hq hh hs
    exact ⟨hw, hq, hh, hs, (Option.some.inj h).symm⟩
  · exact absurd h (by simp)

theorem worker_run_spec {i : Nat} (h : worker_thread_run s i = some s') :
    ∃ task, s.workers[i]? = some (WorkerPc.holding task) ∧
    s' = { s with
      workers := s.workers.set i WorkerPc.finished
      executed := s.executed ++ [task] } := by
  unfold worker_thread_run at h
  split at h
  · rename_i task hw
    exact ⟨task, hw, (Option.some.inj h).symm⟩
  · exact absurd h (by simp)

theorem worker_done_spec {i : Nat} (h : worker_thread_done s i = some s') :
    s.workers[i]? = some WorkerPc.finished ∧ s.state_mutex = false ∧
    s' = { s with
      active_tasks := (s.active_tasks + SIZE_MOD - 1) % SIZE_MOD
      workers := s.workers.set i WorkerPc.waiting } := by
  unfold worker_thread_done at h
  split at h
  · rename_i hw hs
    exact ⟨hw, hs, (Option.some.inj h).symm⟩
  · exact absurd h (by simp)

/-! ## The linked queue -/

theorem isQueue_congr {heap heap1 : Addr → Option (Node Task)} :
    ∀ (q : List (Addr × Task)) (cur : Option Addr), IsQueue heap cur q →
      (∀ a, a ∈ q.map Prod.fst → heap1 a = heap a) → IsQueue heap1 cur q
  | [], _, h, _ => h
  | (a, t) :: rest, cur, h, hh => by
    obtain ⟨hc, nx, hn, hr⟩ := h
    refine ⟨hc, nx, ?_, isQueue_congr rest nx hr fun b hb => hh b (by simp [hb])⟩
    rw [hh a (by simp)]; exact hn

theorem isQueue_none {heap : Addr → Option (Node Task)} {q : List (Addr × Task)}
    (h : IsQueue heap none q) : q = [] := by
  cases q with
  | nil => rfl
  | cons p rest =>
    obtain ⟨a, t⟩ := p
    exact absurd h.1 (by simp)

theorem isQueue_some {heap : Addr → Option (Node Task)} {q : List (Addr × Task)} {a : Addr}
    {node : Node Task} (h : IsQueue heap (some a) q) (hn : heap a = some node) :
    ∃ rest, q = (a, node.task) :: rest ∧ IsQueue heap node.next rest := by
  cases q with
  | nil => exact absurd h (by simp [IsQueue])
  | cons p rest =>
    obtain ⟨b, t⟩ := p
    obtain ⟨hc, nx, hb, hr⟩ := h
    obtain rfl : a = b := Option.some.inj hc
    rw [hn] at hb
    obtain rfl : node = ⟨t, nx⟩ := Option.some.inj hb
    exact ⟨rest, rfl, hr⟩

theorem isQueue_head_none_iff {heap : Addr → Option (Node Task)} {q : List (Addr × Task)}
    {cur : Option Addr} (h : IsQueue heap cur q) : cur = none ↔ q = [] := by
  constructor
  · intro hc; subst hc; exact isQueue_none h
  · intro hq; subst hq; exact h

theorem isQueue_snoc {heap : Addr → Option (Node Task)} {a t : Addr} {task : Task}
    {last : Node Task} (ha : heap a = none) (hl : heap t = some last) :
    ∀ (q : List (Addr × Task)) (cur : Option Addr), IsQueue heap cur q →
      (q.map Prod.fst).Nodup → (q.map Prod.fst).getLast? = some t →
      IsQueue (Function.update (Function.update heap t (some ⟨last.task, some a⟩))
        a (some ⟨task, none⟩)) cur (q ++ [(a, task)])
  | [], _, _, _, ht => absurd ht (by simp)
  | [(b, tb)], cur, h, _, ht => by
    obtain ⟨hc, nx, hb, hr⟩ := h
    have hbt : b = t := by simpa using ht
    subst hbt
    have hnx : nx = none := hr
    subst hnx
    rw [hl] at hb
    obtain rfl : last = ⟨tb, none⟩ := Option.some.inj hb
    have hba : b ≠ a := by
      intro e; subst e; rw [ha] at hl; exact absurd hl (by simp)
    refine ⟨hc, some a, ?_, rfl, none, ?_, rfl⟩
    · simp [Function.update, hba]
    · simp [Function.update]
  | (b, tb) :: c :: rest, cur, h, hnd, ht => by
    obtain ⟨hc, nx, hb, hr⟩ := h
    have hnd2 : b ∉ (c :: rest).map Prod.fst ∧ ((c :: rest).map Prod.fst).Nodup := by
      simpa using hnd
    have ht2 : ((c :: rest).map Prod.fst).getLast? = some t := by simpa using ht
    have htm : t ∈ (c :: rest).map Prod.fst := List.mem_of_getLast?_eq_some ht2
    have hbt : b ≠ t := fun e => hnd2.1 (e ▸ htm)
    have hba : b ≠ a := by
      intro e; subst e; rw [ha] at hb; exact absurd hb (by simp)
    refine ⟨hc, nx, ?_, isQueue_snoc ha hl (c :: rest) nx hr hnd2.2 ht2⟩
    simp [Function.update, hba, hbt, hb]

theorem queueInv_init (n : Nat) : QueueInv (init n : State Task) [] :=
  { chain := rfl
    nodup := List.nodup_nil
    live := fun a => by simp [init]
    tail_eq := rfl
    fifo := rfl }

theorem queueInv_enqueue_link {s s1 : State Task} {q : List (Addr × Task)} {a : Addr}
    {task : Task} (inv : QueueInv s q) (h : enqueue_link s a task = some s1) :
    QueueInv s1 (q ++ [(a, task)]) := by
  obtain ⟨_, ha, h | ⟨t, last, ht, hl, h⟩⟩ := enqueue_link_spec h
  · obtain ⟨ht, rfl⟩ := h
    have hq : q = [] := by
      have := inv.tail_eq
      rw [ht] at this
      simpa using this.symm
    subst hq
    refine ⟨⟨rfl, none, by simp [Function.update], rfl⟩, by simp, ?_, by simp, ?_⟩
    · intro b
      have hb := inv.live b
      by_cases e : b = a
      · subst e; simp [Function.update]
      · simpa [Function.update, e] using hb
    · simpa using inv.fifo
  · subst h
    have hlast : (q.map Prod.fst).getLast? = some t := by rw [← inv.tail_eq]; exact ht
    have hanot : a ∉ q.map Prod.fst := fun hm => ((inv.live a).2 hm) ha
    have htm : t ∈ q.map Prod.fst := List.mem_of_getLast?_eq_some hlast
    refine ⟨isQueue_snoc ha hl q s.head inv.chain inv.nodup hlast, ?_, ?_, ?_, ?_⟩
    · rw [List.map_append, List.nodup_append]
      refine ⟨inv.nodup, by simp, ?_⟩
      intro x hx hx2
      have : x = a := by simpa using hx2
      exact hanot (this ▸ hx)
    · intro b
      have hb := inv.live b
      by_cases e : b = a
      · subst e; simp [Function.update]
      · by_cases e2 : b = t
        · subst e2; simp [Function.update, e, htm]
        · simpa [Function.update, e, e2] using hb
    · simp [List.getLast?_concat]
    · simp [inv.fifo]

theorem queueInv_worker_take {s s1 : State Task} {q : List (Addr × Task)} {i : Nat}
    (inv : QueueInv s q) (h : worker_thread_take s i = some s1) :
    QueueInv s1 q.tail ∧ ∃ p, q = p :: q.tail ∧ s1.dequeued = s.dequeued ++ [p.2] := by
  obtain ⟨_, _, a, node, hh, hn, rfl⟩ := worker_take_spec h
  have hc := inv.chain
  rw [hh] at hc
  obtain ⟨rest, rfl, hr⟩ := isQueue_some hc hn
  have hnd : a ∉ rest.map Prod.fst ∧ (rest.map Prod.fst).Nodup := by simpa using inv.nodup
  refine ⟨⟨?_, hnd.2, ?_, ?_, ?_⟩, (a, node.task), rfl, rfl⟩
  · refine isQueue_congr rest node.next hr fun b hb => ?_
    have : b ≠ a := fun e => hnd.1 (e ▸ hb)
    simp [Function.update, this]
  · intro b
    have hb := inv.live b
    by_cases e : b = a
    · subst e; simp [Function.update, hnd.1]
    · simpa [Function.update, e] using hb
  · have ht := inv.tail_eq
    cases hx : node.next with
    | none =>
      rw [hx] at hr
      have := isQueue_none hr
      subst this
      simp
    | some b =>
      rw [hx] at hr
      cases rest with
      | nil => exact absurd hr (by simp [IsQueue])
      | cons c rest2 => simpa using ht
  · simp [inv.fifo]

/-! ## Lists of program counters -/

section lists
variable {α β : Type}

theorem countP_set_add (p : α → Bool) :
    ∀ (l : List α) (i : Nat) (x y : α), l[i]? = some y →
      List.countP p (l.set i x) + (if p y then 1 else 0) =
        List.countP p l + (if p x then 1 else 0)
  | [], i, x, y, h => absurd h (by simp)
  | a :: l, 0, x, y, h => by
    have : a = y := by simpa using h
    subst this
    simp only [List.set_cons_zero, List.countP_cons]
    omega
  | a :: l, i + 1, x, y, h => by
    have h2 : l[i]? = some y := by simpa using h
    have ih := countP_set_add p l i x y h2
    simp only [List.set_cons_succ, List.countP_cons]
    omega

theorem filterMap_set_perm (f : α → Option β) :
    ∀ (l : List α) (i : Nat) (x y : α), l[i]? = some y →
      List.Perm ((f y).toList ++ List.filterMap f (l.set i x))
        ((f x).toList ++ List.filterMap f l)
  | [], i, x, y, h => absurd h (by simp)
  | a :: l, 0, x, y, h => by
    have : a = y := by simpa using h
    subst this
    simp only [List.set_cons_zero, List.filterMap_cons]
    cases f a <;> cases f x <;> simp [List.perm_middle, List.Perm.swap]
  | a :: l, i + 1, x, y, h => by
    have h2 : l[i]? = some y := by simpa using h
    have ih := filterMap_set_perm f l i x y h2
    simp only [List.set_cons_succ, List.filterMap_cons]
    cases hfa : f a with
    | none => simpa using ih
    | some b =>
      simp only []
      refine List.Perm.trans List.perm_middle (List.Perm.trans (List.Perm.cons b ih) ?_)
      exact List.perm_middle.symm

theorem countP_eq_zero_of_all (p : α → Bool) (l : List α) (x : α) (hx : p x = false)
    (h : ∀ i, i < l.length → l[i]? = some x) : List.countP p l = 0 := by
  rw [List.countP_eq_zero]
  intro a ha
  obtain ⟨i, hi, rfl⟩ := List.getElem_of_mem ha
  have := h i hi
  rw [List.getElem?_eq_getElem hi] at this
  rw [Option.some.inj this, hx]
  simp

theorem filterMap_eq_nil_of_all (f : α → Option β) (l : List α) (x : α) (hx : f x = none)
    (h : ∀ i, i < l.length → l[i]? = some x) : List.filterMap f l = [] := by
  rw [List.filterMap_eq_nil_iff]
  intro a ha
  obtain ⟨i, hi, rfl⟩ := List.getElem_of_mem ha
  have := h i hi
  rw [List.getElem?_eq_getElem hi] at this
  rw [Option.some.inj this, hx]

end lists

/-! ## The counter -/

theorem queueInv_step {s s1 : State Task} {q : List (Addr × Task)} {e : Step Task}
    (inv : QueueInv s q) (h : step s e = some s1) : QueueInv s1 (next_queue q e) := by
  cases e with
  | enqueue_link a t => exact queueInv_enqueue_link inv h
  | enqueue_count =>
    obtain ⟨_, _, rfl⟩ := enqueue_count_spec h
    exact ⟨inv.chain, inv.nodup, inv.live, inv.tail_eq, inv.fifo⟩
  | drain_wait =>
    obtain ⟨_, _, rfl⟩ := drain_wait_spec h
    exact ⟨inv.chain, inv.nodup, inv.live, inv.tail_eq, inv.fifo⟩
  | drain_stop =>
    obtain ⟨_, _, rfl⟩ := drain_stop_spec h
    exact ⟨inv.chain, inv.nodup, inv.live, inv.tail_eq, inv.fifo⟩
  | drain_join =>
    obtain ⟨i, _, _, ⟨_, _, rfl⟩ | ⟨_, rfl⟩⟩ := drain_join_spec h
    · exact ⟨inv.chain, inv.nodup, inv.live, inv.tail_eq, inv.fifo⟩
    · exact ⟨inv.chain, inv.nodup, inv.live, inv.tail_eq, inv.fifo⟩
  | drain_return =>
    obtain ⟨i, _, _, rfl⟩ := drain_return_spec h
    exact ⟨inv.chain, inv.nodup, inv.live, inv.tail_eq, inv.fifo⟩
  | worker_take i => exact (queueInv_worker_take inv h).1
  | worker_exit i =>
    obtain ⟨_, _, _, _, rfl⟩ := worker_exit_spec h
    exact ⟨inv.chain, inv.nodup, inv.live, inv.tail_eq, inv.fifo⟩
  | worker_run i =>
    obtain ⟨t, _, rfl⟩ := worker_run_spec h
    exact ⟨inv.chain, inv.nodup, inv.live, inv.tail_eq, inv.fifo⟩
  | worker_done i =>
    obtain ⟨_, _, rfl⟩ := worker_done_spec h
    exact ⟨inv.chain, inv.nodup, inv.live, inv.tail_eq, inv.fifo⟩

theorem counterInv_init (n : Nat) : CounterInv (init n : State Task) [] := by
  have hb : busy (init n : State Task) = 0 := by
    simp [busy, init, List.countP_eq_zero, WorkerPc.isBusy]
  refine ⟨?_, by simp [init, SIZE_MOD], by simp [init]⟩
  rw [hb]
  simp [init]

theorem busy_set {s : State Task} {i : Nat} {x y : WorkerPc Task}
    (h : s.workers[i]? = some y) :
    List.countP WorkerPc.isBusy (s.workers.set i x) + (if y.isBusy = true then 1 else 0) =
      busy s + (if x.isBusy = true then 1 else 0) :=
  countP_set_add WorkerPc.isBusy s.workers i x y h

theorem counterInv_step {s s1 : State Task} {q : List (Addr × Task)} {e : Step Task}
    (inv : CounterInv s q) (qinv : QueueInv s q) (h : step s e = some s1) :
    CounterInv s1 (next_queue q e) := by
  have hc := inv.counter
  have hl := inv.counter_lt
  have hcs := inv.in_cs
  have hm := size_mod_pos
  cases e with
  | enqueue_link a t =>
    obtain ⟨hq, _, ⟨_, rfl⟩ | ⟨_, _, _, _, rfl⟩⟩ := enqueue_link_spec h
    all_goals
      refine ⟨?_, hl, by simp [next_queue]⟩
      simp only [hq, busy, next_queue, List.length_append, List.length_singleton] at hc ⊢
      simp only [SIZE_MOD] at hc ⊢
      simp at hc ⊢
      omega
  | enqueue_count =>
    obtain ⟨hq, _, rfl⟩ := enqueue_count_spec h
    refine ⟨?_, Nat.mod_lt _ hm, by simp⟩
    simp only [hq, busy, next_queue] at hc ⊢
    simp only [SIZE_MOD] at hc ⊢
    simp at hc ⊢
    omega
  | drain_wait =>
    obtain ⟨_, _, rfl⟩ := drain_wait_spec h
    exact ⟨hc, hl, hcs⟩
  | drain_stop =>
    obtain ⟨_, _, rfl⟩ := drain_stop_spec h
    exact ⟨hc, hl, hcs⟩
  | drain_join =>
    obtain ⟨i, _, _, ⟨_, _, rfl⟩ | ⟨_, rfl⟩⟩ := drain_join_spec h
    · exact ⟨hc, hl, hcs⟩
    · exact ⟨hc, hl, hcs⟩
  | drain_return =>
    obtain ⟨i, _, _, rfl⟩ := drain_return_spec h
    exact ⟨hc, hl, hcs⟩
  | worker_take i =>
    obtain ⟨_, p, hp, _⟩ := queueInv_worker_take qinv h
    obtain ⟨hw, hq, a, node, _, _, rfl⟩ := worker_take_spec h
    have hb := busy_set (x := WorkerPc.holding node.task) hw
    have hlen : q.length = q.tail.length + 1 := by rw [hp]; simp
    refine ⟨?_, hl, by simp [hq]⟩
    simp only [hq, busy, next_queue, WorkerPc.isBusy] at hc hb ⊢
    simp only [SIZE_MOD] at hc ⊢
    simp at hc hb ⊢
    rw [hb]
    omega
  | worker_exit i =>
    obtain ⟨hw, hq, _, _, rfl⟩ := worker_exit_spec h
    have hb := busy_set (x := (WorkerPc.exited : WorkerPc Task)) hw
    refine ⟨?_, hl, hcs⟩
    simp only [busy, next_queue, WorkerPc.isBusy] at hc hb ⊢
    simp at hb
    rw [hb]
    exact hc
  | worker_run i =>
    obtain ⟨t, hw, rfl⟩ := worker_run_spec h
    have hb := busy_set (x := (WorkerPc.finished : WorkerPc Task)) hw
    refine ⟨?_, hl, hcs⟩
    simp only [busy, next_queue, WorkerPc.isBusy] at hc hb ⊢
    simp at hb
    rw [hb]
    exact hc
  | worker_done i =>
    obtain ⟨hw, _, rfl⟩ := worker_done_spec h
    have hb := busy_set (x := (WorkerPc.waiting : WorkerPc Task)) hw
    refine ⟨?_, Nat.mod_lt _ hm, hcs⟩
    simp only [busy, next_queue, WorkerPc.isBusy] at hc hb ⊢
    simp at hb
    rw [← hb] at hc
    simp only [SIZE_MOD] at hc hl ⊢
    split_ifs at hc ⊢ <;> omega

/-! ## The logs -/

theorem held_init (n : Nat) : held (init n : State Task) = [] := by
  simp [held, init, List.filterMap_eq_nil_iff, WorkerPc.heldTask]

theorem logInv_init (n : Nat) : LogInv (init n : State Task) := by
  refine ⟨?_, fun _ => ?_⟩
  · rw [held_init]; simp [init]
  · rw [held_init]; simp [init]

theorem held_set {s : State Task} {i : Nat} {x y : WorkerPc Task}
    (h : s.workers[i]? = some y) :
    List.Perm (y.heldTask.toList ++ List.filterMap WorkerPc.heldTask (s.workers.set i x))
      (x.heldTask.toList ++ held s) :=
  filterMap_set_perm WorkerPc.heldTask s.workers i x y h

theorem held_set_single {s : State Task} {i : Nat} {x y : WorkerPc Task}
    (h : s.workers[i]? = some y) (h1 : s.workers.length = 1) :
    held s = y.heldTask.toList ∧
      List.filterMap WorkerPc.heldTask (s.workers.set i x) = x.heldTask.toList := by
  unfold held
  match hw : s.workers, h1 with
  | [w], _ =>
    rw [hw] at h
    cases i with
    | zero =>
      have : w = y := by simpa using h
      subst this
      constructor
      · cases hh : WorkerPc.heldTask w <;> simp [List.filterMap_cons, hh]
      · cases hh : WorkerPc.heldTask x <;> simp [List.filterMap_cons, hh]
    | succ j => exact absurd h (by simp)

theorem logInv_step {s s1 : State Task} {e : Step Task}
    (inv : LogInv s) (h : step s e = some s1) : LogInv s1 := by
  cases e with
  | enqueue_link a t =>
    obtain ⟨_, _, ⟨_, rfl⟩ | ⟨_, _, _, _, rfl⟩⟩ := enqueue_link_spec h
    · exact ⟨inv.perm, inv.serial⟩
    · exact ⟨inv.perm, inv.serial⟩
  | enqueue_count =>
    obtain ⟨_, _, rfl⟩ := enqueue_count_spec h
    exact ⟨inv.perm, inv.serial⟩
  | drain_wait =>
    obtain ⟨_, _, rfl⟩ := drain_wait_spec h
    exact ⟨inv.perm, inv.serial⟩
  | drain_stop =>
    obtain ⟨_, _, rfl⟩ := drain_stop_spec h
    exact ⟨inv.perm, inv.serial⟩
  | drain_join =>
    obtain ⟨i, _, _, ⟨_, _, rfl⟩ | ⟨_, rfl⟩⟩ := drain_join_spec h
    · exact ⟨inv.perm, inv.serial⟩
    · exact ⟨inv.perm, inv.serial⟩
  | drain_return =>
    obtain ⟨i, _, _, rfl⟩ := drain_return_spec h
    exact ⟨inv.perm, inv.serial⟩
  | worker_take i =>
    obtain ⟨hw, _, a, node, _, _, rfl⟩ := worker_take_spec h
    have hp := held_set (x := WorkerPc.holding node.task) hw
    simp only [WorkerPc.heldTask, Option.toList, List.nil_append, List.singleton_append] at hp
    refine ⟨?_, fun h1 => ?_⟩
    · show List.Perm (s.dequeued ++ [node.task]) (s.executed ++
        List.filterMap WorkerPc.heldTask (s.workers.set i (WorkerPc.holding node.task)))
      refine List.Perm.trans (List.perm_append_singleton _ _) ?_
      refine List.Perm.trans (List.Perm.cons _ inv.perm) ?_
      refine List.Perm.trans List.perm_middle.symm ?_
      exact List.Perm.append_left _ hp.symm
    · have h1 : s.workers.length = 1 := by simpa using h1
      have hs := held_set_single (x := WorkerPc.holding node.task) hw h1
      show s.dequeued ++ [node.task] = s.executed ++
        List.filterMap WorkerPc.heldTask (s.workers.set i (WorkerPc.holding node.task))
      rw [hs.2, inv.serial h1, hs.1]
      simp [WorkerPc.heldTask]
  | worker_exit i =>
    obtain ⟨hw, _, _, _, rfl⟩ := worker_exit_spec h
    have hp := held_set (x := (WorkerPc.exited : WorkerPc Task)) hw
    simp only [WorkerPc.heldTask, Option.toList, List.nil_append] at hp
    refine ⟨?_, fun h1 => ?_⟩
    · exact List.Perm.trans inv.perm (List.Perm.append_left _ hp.symm)
    · have h1 : s.workers.length = 1 := by simpa using h1
      have hs := held_set_single (x := (WorkerPc.exited : WorkerPc Task)) hw h1
      show s.dequeued = s.executed ++
        List.filterMap WorkerPc.heldTask (s.workers.set i WorkerPc.exited)
      rw [hs.2, inv.serial h1, hs.1]
      simp [WorkerPc.heldTask]
  | worker_run i =>
    obtain ⟨t, hw, rfl⟩ := worker_run_spec h
    have hp := held_set (x := (WorkerPc.finished : WorkerPc Task)) hw
    simp only [WorkerPc.heldTask, Option.toList, List.nil_append, List.singleton_append] at hp
    refine ⟨?_, fun h1 => ?_⟩
    · show List.Perm s.dequeued (s.executed ++ [t] ++
        List.filterMap WorkerPc.heldTask (s.workers.set i WorkerPc.finished))
      refine List.Perm.trans inv.perm ?_
      refine List.Perm.trans (List.Perm.append_left _ hp.symm) ?_
      simp
    · have h1 : s.workers.length = 1 := by simpa using h1
      have hs := held_set_single (x := (WorkerPc.finished : WorkerPc Task)) hw h1
      show s.dequeued = s.executed ++ [t] ++
        List.filterMap WorkerPc.heldTask (s.workers.set i WorkerPc.finished)
      rw [hs.2, inv.serial h1, hs.1]
      simp [WorkerPc.heldTask]
  | worker_done i =>
    obtain ⟨hw, _, rfl⟩ := worker_done_spec h
    have hp := held_set (x := (WorkerPc.waiting : WorkerPc Task)) hw
    simp only [WorkerPc.heldTask, Option.toList, List.nil_append] at hp
    refine ⟨?_, fun h1 => ?_⟩
    · exact List.Perm.trans inv.perm (List.Perm.append_left _ hp.symm)
    · have h1 : s.workers.length = 1 := by simpa using h1
      have hs := held_set_single (x := (WorkerPc.waiting : WorkerPc Task)) hw h1
      show s.dequeued = s.executed ++
        List.filterMap WorkerPc.heldTask (s.workers.set i WorkerPc.waiting)
      rw [hs.2, inv.serial h1, hs.1]
      simp [WorkerPc.heldTask]

/-! ## The drain protocol -/

theorem drainInv_init (n : Nat) : DrainInv (init n : State Task) := by
  refine ⟨by simp [init], by simp [init], by simp [init], by simp [init], ?_, by simp [init],
    ?_, by simp [init], by simp [init], by simp [init], by simp [init], by simp [init], ?_⟩
  · intro j hj
    simp only [init, List.getElem?_replicate] at hj
    split at hj <;> simp at hj
  · intro j
    simp only [init, List.getElem?_replicate]
    split <;> simp
  · intro j hj
    simp only [init, List.getElem?_replicate] at hj
    split at hj <;> simp at hj

theorem workers_set_joined {joinable : List Bool} {workers : List (WorkerPc Task)} {i : Nat}
    {x y : WorkerPc Task}
    (inv : ∀ j : Nat, joinable[j]? = some false → workers[j]? = some WorkerPc.exited)
    (hw : workers[i]? = some y) (hy : y ≠ WorkerPc.exited) :
    ∀ j : Nat, joinable[j]? = some false → (workers.set i x)[j]? = some WorkerPc.exited := by
  intro j hj
  by_cases e : i = j
  · subst e
    have := inv i hj
    rw [hw] at this
    exact absurd (Option.some.inj this) hy
  · rw [List.getElem?_set_ne e]; exact inv j hj

theorem workers_set_exited {stop : Bool} {workers : List (WorkerPc Task)} {i : Nat}
    {x : WorkerPc Task}
    (inv : ∀ j : Nat, workers[j]? = some WorkerPc.exited → stop = true)
    (hx : x = WorkerPc.exited → stop = true) :
    ∀ j : Nat, (workers.set i x)[j]? = some WorkerPc.exited → stop = true := by
  intro j hj
  rw [List.getElem?_set] at hj
  split at hj
  · split at hj
    · exact hx (Option.some.inj hj)
    · exact absurd hj (by simp)
  · exact inv j hj

theorem drainInv_step {s s1 : State Task} {e : Step Task}
    (inv : DrainInv s) (h : step s e = some s1) : DrainInv s1 := by
  cases e with
  | enqueue_link a t =>
    obtain ⟨_, _, ⟨_, rfl⟩ | ⟨_, _, _, _, rfl⟩⟩ := enqueue_link_spec h
    · exact ⟨inv.mutex_pc, inv.len_w, inv.len_j, inv.drained, inv.joined_exited,
        inv.joins_nodup, inv.joins_iff, inv.join_progress, inv.stop_of_join,
        inv.stop_of_return, inv.returned, inv.stop_origin, inv.exited_stop⟩
    · exact ⟨inv.mutex_pc, inv.len_w, inv.len_j, inv.drained, inv.joined_exited,
        inv.joins_nodup, inv.joins_iff, inv.join_progress, inv.stop_of_join,
        inv.stop_of_return, inv.returned, inv.stop_origin, inv.exited_stop⟩
  | enqueue_count =>
    obtain ⟨_, hs, rfl⟩ := enqueue_count_spec h
    exact ⟨inv.mutex_pc, inv.len_w, inv.len_j, fun hh => absurd hh (by simp [hs]),
      inv.joined_exited, inv.joins_nodup, inv.joins_iff, inv.join_progress, inv.stop_of_join,
      inv.stop_of_return, inv.returned, inv.stop_origin, inv.exited_stop⟩
  | drain_wait =>
    obtain ⟨hs, ha, rfl⟩ := drain_wait_spec h
    have hd : s.drain = DrainPc.outside := by
      by_contra hne
      have := inv.mutex_pc.2 hne
      rw [hs] at this
      exact absurd this (by simp)
    refine ⟨by simp, inv.len_w, inv.len_j, fun _ => ha, inv.joined_exited, inv.joins_nodup,
      inv.joins_iff, fun i hi => absurd hi (by simp), fun i hi => absurd hi (by simp),
      inv.stop_of_return, inv.returned, ?_, inv.exited_stop⟩
    intro hst
    rcases inv.stop_origin hst with ⟨i, hi⟩ | hr
    · rw [hd] at hi; exact absurd hi (by simp)
    · exact Or.inr hr
  | drain_stop =>
    obtain ⟨hd, _, rfl⟩ := drain_stop_spec h
    have hsm : s.state_mutex = true := inv.mutex_pc.2 (by rw [hd]; simp)
    refine ⟨?_, inv.len_w, inv.len_j, inv.drained, inv.joined_exited, inv.joins_nodup,
      inv.joins_iff, ?_, fun _ _ => rfl, fun _ => rfl, inv.returned,
      fun _ => Or.inl ⟨0, rfl⟩, fun _ _ => rfl⟩
    · simp [hsm]
    · intro i hi j hj
      have : i = 0 := by
        have hi2 : DrainPc.joining 0 = DrainPc.joining i := hi
        injection hi2 with h0
        exact h0.symm
      omega
  | drain_join =>
    obtain ⟨i, hd, hi, ⟨hj, hw, rfl⟩ | ⟨hj, rfl⟩⟩ := drain_join_spec h
    · have hsm : s.state_mutex = true := inv.mutex_pc.2 (by rw [hd]; simp)
      have hst := inv.stop_of_join i hd
      have hil : i < s.joinable.length := by rw [inv.len_j]; exact hi
      have hnot : i ∉ s.joins := by
        intro hm
        have := (inv.joins_iff i).1 hm
        rw [hj] at this
        exact absurd this (by simp)
      refine ⟨?_, inv.len_w, ?_, inv.drained, ?_, ?_, ?_, ?_, fun _ _ => hst,
        inv.stop_of_return, ?_, fun _ => Or.inl ⟨i + 1, rfl⟩, inv.exited_stop⟩
      · simp [hsm]
      · simp [inv.len_j]
      · intro j hjf
        by_cases e : i = j
        · subst e; exact hw
        · have hjf2 : (s.joinable.set i false)[j]? = some false := hjf
          rw [List.getElem?_set_ne e] at hjf2
          exact inv.joined_exited j hjf2
      · show (s.joins ++ [i]).Nodup
        rw [List.nodup_append]
        refine ⟨inv.joins_nodup, by simp, ?_⟩
        intro x hx hx2
        have : x = i := by simpa using hx2
        exact hnot (this ▸ hx)
      · intro j
        show j ∈ s.joins ++ [i] ↔ (s.joinable.set i false)[j]? = some false
        by_cases e : i = j
        · subst e
          simp [List.getElem?_set_self hil]
        · rw [List.getElem?_set_ne e, List.mem_append, inv.joins_iff j]
          constructor
          · rintro (hh | hh)
            · exact hh
            · exact absurd (by simpa using hh : j = i).symm e
          · exact fun hh => Or.inl hh
      · intro k hk j hjk hjn
        have hk2 : i + 1 = k := by
          have hk3 : DrainPc.joining (i + 1) = DrainPc.joining k := hk
          injection hk3
        show (s.joinable.set i false)[j]? = some false
        by_cases e : i = j
        · subst e
          exact List.getElem?_set_self hil
        · rw [List.getElem?_set_ne e]
          exact inv.join_progress i hd j (by omega) hjn
      · intro hr j hjn
        show (s.joinable.set i false)[j]? = some false
        by_cases e : i = j
        · subst e
          exact List.getElem?_set_self hil
        · rw [List.getElem?_set_ne e]
          exact inv.returned hr j hjn
    · have hsm : s.state_mutex = true := inv.mutex_pc.2 (by rw [hd]; simp)
      have hst := inv.stop_of_join i hd
      refine ⟨?_, inv.len_w, inv.len_j, inv.drained, inv.joined_exited, inv.joins_nodup,
        inv.joins_iff, ?_, fun _ _ => hst, inv.stop_of_return, inv.returned,
        fun _ => Or.inl ⟨i + 1, rfl⟩, inv.exited_stop⟩
      · simp [hsm]
      · intro k hk j hjk hjn
        have hk2 : i + 1 = k := by
          have hk3 : DrainPc.joining (i + 1) = DrainPc.joining k := hk
          injection hk3
        by_cases e : i = j
        · subst e; exact hj
        · exact inv.join_progress i hd j (by omega) hjn
  | drain_return =>
    obtain ⟨i, hd, hi, rfl⟩ := drain_return_spec h
    have hst := inv.stop_of_join i hd
    refine ⟨by simp, inv.len_w, inv.len_j, fun hh => absurd hh (by simp), inv.joined_exited,
      inv.joins_nodup, inv.joins_iff, fun k hk => absurd hk (by simp),
      fun k hk => absurd hk (by simp), fun _ => hst, ?_, fun _ => Or.inr (Nat.succ_pos _),
      inv.exited_stop⟩
    intro _ j hjn
    have hjn2 : j < s.thread_count := hjn
    exact inv.join_progress i hd j (by omega) hjn2
  | worker_take i =>
    obtain ⟨hw, _, a, node, _, _, rfl⟩ := worker_take_spec h
    exact ⟨inv.mutex_pc, by simp [inv.len_w], inv.len_j, inv.drained,
      workers_set_joined inv.joined_exited hw (by simp), inv.joins_nodup, inv.joins_iff,
      inv.join_progress, inv.stop_of_join, inv.stop_of_return, inv.returned, inv.stop_origin,
      workers_set_exited inv.exited_stop (by simp)⟩
  | worker_exit i =>
    obtain ⟨hw, _, _, hst, rfl⟩ := worker_exit_spec h
    exact ⟨inv.mutex_pc, by simp [inv.len_w], inv.len_j, inv.drained,
      workers_set_joined inv.joined_exited hw (by simp), inv.joins_nodup, inv.joins_iff,
      inv.join_progress, inv.stop_of_join, inv.stop_of_return, inv.returned, inv.stop_origin,
      workers_set_exited inv.exited_stop (fun _ => hst)⟩
  | worker_run i =>
    obtain ⟨t, hw, rfl⟩ := worker_run_spec h
    exact ⟨inv.mutex_pc, by simp [inv.len_w], inv.len_j, inv.drained,
      workers_set_joined inv.joined_exited hw (by simp), inv.joins_nodup, inv.joins_iff,
      inv.join_progress, inv.stop_of_join, inv.stop_of_return, inv.returned, inv.stop_origin,
      workers_set_exited inv.exited_stop (by simp)⟩
  | worker_done i =>
    obtain ⟨hw, hs, rfl⟩ := worker_done_spec h
    exact ⟨inv.mutex_pc, by simp [inv.len_w], inv.len_j, fun hh => absurd hh (by simp [hs]),
      workers_set_joined inv.joined_exited hw (by simp), inv.joins_nodup, inv.joins_iff,
      inv.join_progress, inv.stop_of_join, inv.stop_of_return, inv.returned, inv.stop_origin,
      workers_set_exited inv.exited_stop (by simp)⟩

/-! ## Reachable states -/

theorem inv_init (n : Nat) : Inv (init n : State Task) [] :=
  ⟨queueInv_init n, counterInv_init n, logInv_init n, drainInv_init n⟩

theorem inv_step {s s1 : State Task} {q : List (Addr × Task)} {e : Step Task}
    (inv : Inv s q) (h : step s e = some s1) : Inv s1 (next_queue q e) :=
  ⟨queueInv_step inv.queue h, counterInv_step inv.count inv.queue h, logInv_step inv.log h,
    drainInv_step inv.drain h⟩

theorem run_cons {s s2 : State Task} {e : Step Task} {es : List (Step Task)}
    (h : run s (e :: es) = some s2) : ∃ s1, step s e = some s1 ∧ run s1 es = some s2 := by
  unfold run at h
  split at h
  · exact absurd h (by simp)
  · rename_i s1 h1
    exact ⟨s1, h1, h⟩

theorem run_append {s s2 : State Task} :
    ∀ (tr1 tr2 : List (Step Task)), run s (tr1 ++ tr2) = some s2 →
      ∃ s1, run s tr1 = some s1 ∧ run s1 tr2 = some s2 := by
  intro tr1
  induction tr1 generalizing s with
  | nil => intro tr2 h; exact ⟨s, rfl, h⟩
  | cons e es ih =>
    intro tr2 h
    have hc : run s (e :: (es ++ tr2)) = some s2 := h
    obtain ⟨s1, h1, h2⟩ := run_cons hc
    obtain ⟨s3, h3, h4⟩ := ih tr2 h2
    refine ⟨s3, ?_, h4⟩
    unfold run
    rw [h1]
    exact h3

theorem run_single {s s1 : State Task} {e : Step Task} (h : run s [e] = some s1) :
    step s e = some s1 := by
  obtain ⟨s2, h1, h2⟩ := run_cons h
  have : s2 = s1 := Option.some.inj h2
  rw [← this]; exact h1

theorem inv_run {s s1 : State Task} {q : List (Addr × Task)} :
    ∀ (tr : List (Step Task)), Inv s q → run s tr = some s1 → Inv s1 (queue_after q tr) := by
  intro tr
  induction tr generalizing s q with
  | nil =>
    intro inv h
    have : s = s1 := Option.some.inj h
    rw [← this]; exact inv
  | cons e es ih =>
    intro inv h
    obtain ⟨s2, h1, h2⟩ := run_cons h
    exact ih (inv_step inv h1) h2

theorem inv_reachable {n : Nat} {tr : List (Step Task)} {s : State Task}
    (h : run (init n) tr = some s) : Inv s (queue_after [] tr) :=
  inv_run tr (inv_init n) h

theorem step_static {s s1 : State Task} {e : Step Task} (h : step s e = some s1) :
    s1.thread_count = s.thread_count ∧ s1.submitted = s.submitted ++ enqueued_tasks [e] := by
  cases e with
  | enqueue_link a t =>
    obtain ⟨_, _, ⟨_, rfl⟩ | ⟨_, _, _, _, rfl⟩⟩ := enqueue_link_spec h
    · exact ⟨rfl, rfl⟩
    · exact ⟨rfl, rfl⟩
  | enqueue_count => obtain ⟨_, _, rfl⟩ := enqueue_count_spec h; simp [enqueued_tasks]
  | drain_wait => obtain ⟨_, _, rfl⟩ := drain_wait_spec h; simp [enqueued_tasks]
  | drain_stop => obtain ⟨_, _, rfl⟩ := drain_stop_spec h; simp [enqueued_tasks]
  | drain_join =>
    obtain ⟨i, _, _, ⟨_, _, rfl⟩ | ⟨_, rfl⟩⟩ := drain_join_spec h <;> simp [enqueued_tasks]
  | drain_return => obtain ⟨i, _, _, rfl⟩ := drain_return_spec h; simp [enqueued_tasks]
  | worker_take i =>
    obtain ⟨_, _, a, node, _, _, rfl⟩ := worker_take_spec h; simp [enqueued_tasks]
  | worker_exit i => obtain ⟨_, _, _, _, rfl⟩ := worker_exit_spec h; simp [enqueued_tasks]
  | worker_run i => obtain ⟨t, _, rfl⟩ := worker_run_spec h; simp [enqueued_tasks]
  | worker_done i => obtain ⟨_, _, rfl⟩ := worker_done_spec h; simp [enqueued_tasks]

theorem enqueued_tasks_cons (e : Step Task) (es : List (Step Task)) :
    enqueued_tasks (e :: es) = enqueued_tasks [e] ++ enqueued_tasks es := by
  cases e <;> simp [enqueued_tasks]

theorem run_static {s s1 : State Task} :
    ∀ (tr : List (Step Task)), run s tr = some s1 →
      s1.thread_count = s.thread_count ∧ s1.submitted = s.submitted ++ enqueued_tasks tr := by
  intro tr
  induction tr generalizing s with
  | nil =>
    intro h
    have : s = s1 := Option.some.inj h
    rw [← this]; simp [enqueued_tasks]
  | cons e es ih =>
    intro h
    obtain ⟨s2, h1, h2⟩ := run_cons h
    obtain ⟨ha, hb⟩ := step_static h1
    obtain ⟨hc, hd⟩ := ih h2
    refine ⟨by rw [hc, ha], ?_⟩
    rw [hd, hb, enqueued_tasks_cons e es, List.append_assoc]

theorem isQueue_unique {heap : Addr → Option (Node Task)} :
    ∀ (q q1 : List (Addr × Task)) (cur : Option Addr),
      IsQueue heap cur q → IsQueue heap cur q1 → q = q1
  | [], q1, _, h, h1 => by
    have hc : _ = none := h
    subst hc
    exact (isQueue_none h1).symm
  | (a, t) :: rest, q1, cur, h, h1 => by
    obtain ⟨hc, nx, hn, hr⟩ := h
    subst hc
    obtain ⟨rest1, rfl, hr1⟩ := isQueue_some h1 hn
    rw [isQueue_unique rest rest1 nx hr hr1]

theorem isQueue_last {heap : Addr → Option (Node Task)} {t : Addr} :
    ∀ (q : List (Addr × Task)) (cur : Option Addr), IsQueue heap cur q →
      (q.map Prod.fst).getLast? = some t → ∃ task, heap t = some ⟨task, none⟩
  | [], _, _, ht => absurd ht (by simp)
  | [(b, tb)], _, h, ht => by
    obtain ⟨_, nx, hb, hr⟩ := h
    have hbt : b = t := by simpa using ht
    have hnx : nx = none := hr
    subst hbt hnx
    exact ⟨tb, hb⟩
  | (b, tb) :: c :: rest, _, h, ht => by
    obtain ⟨_, nx, _, hr⟩ := h
    exact isQueue_last (c :: rest) nx hr (by simpa using ht)

theorem busy_pos {s : State Task} {i : Nat} {w : WorkerPc Task} (hw : s.workers[i]? = some w)
    (hb : w.isBusy = true) : 0 < busy s :=
  List.countP_pos_iff.2 ⟨w, List.getElem?_mem hw, hb⟩

/-! ## Properties of the pool -/

/-- C1. FIFO order: after any schedule of enqueue calls, worker steps and
drain steps, the tasks passed to `enqueue` (in the order of their link steps)
are exactly the log `submitted`, and the tasks removed by the dequeue steps
are a leading segment of it, in the same order. -/
theorem fifo_order (n : Nat) (tr : List (Step Task)) (s : State Task)
    (h : run (init n) tr = some s) :
    s.submitted = enqueued_tasks tr ∧ s.dequeued <+: s.submitted := by
  have inv := inv_reachable h
  refine ⟨by simpa [init] using (run_static tr h).2, ?_⟩
  exact ⟨_, inv.queue.fifo.symm⟩

/-- C8. Queue structure: in every reachable state `head` is null iff `tail`
is null iff the queue is empty; following `next` from `head` visits each live
node exactly once, ends at `tail`, and `tail->next` is null. -/
theorem queue_structure (n : Nat) (tr : List (Step Task)) (s : State Task)
    (h : run (init n) tr = some s) :
    (s.head = none ↔ s.tail = none) ∧
    ∃ q : List (Addr × Task), IsQueue s.heap s.head q ∧ (q.map Prod.fst).Nodup ∧
      (∀ a, s.heap a ≠ none ↔ a ∈ q.map Prod.fst) ∧
      s.tail = (q.map Prod.fst).getLast? ∧
      (s.head = none ↔ q = []) ∧
      (∀ t, s.tail = some t → ∃ task, s.heap t = some ⟨task, none⟩) := by
  have inv := (inv_reachable h).queue
  have hh := isQueue_head_none_iff inv.chain
  have ht : s.tail = none ↔ queue_after [] tr = [] := by
    rw [inv.tail_eq]; simp
  refine ⟨hh.trans ht.symm, _, inv.chain, inv.nodup, inv.live, inv.tail_eq, hh, ?_⟩
  intro t htl
  exact isQueue_last _ _ inv.chain (by rw [← inv.tail_eq]; exact htl)

/-- C2. Active-task counter: in a reachable state whose queue `q` and busy
workers together number fewer than `2^64`, whenever no producer is between the
two halves of the critical section of `enqueue`, `active_tasks` is the number
of queued tasks plus the number of tasks dequeued and not yet decremented, and
it is 0 iff nothing is queued or executing; and a worker about to decrement
finds the counter positive, so the `size_t` does not wrap. -/
theorem active_tasks_counts (n : Nat) (tr : List (Step Task)) (s : State Task)
    (q : List (Addr × Task)) (h : run (init n) tr = some s)
    (hq : IsQueue s.heap s.head q) (hmem : q.length + busy s < SIZE_MOD) :
    (s.queue_mutex = false →
      s.active_tasks = q.length + busy s ∧ (s.active_tasks = 0 ↔ q = [] ∧ busy s = 0)) ∧
    (∀ i : Nat, s.workers[i]? = some WorkerPc.finished →
      0 < s.active_tasks ∧ (s.active_tasks + SIZE_MOD - 1) % SIZE_MOD = s.active_tasks - 1) := by
  have inv := inv_reachable h
  have hqe : queue_after [] tr = q := isQueue_unique _ _ _ inv.queue.chain hq
  have hc := inv.count.counter
  have hl := inv.count.counter_lt
  have hcs := inv.count.in_cs
  rw [hqe] at hc hcs
  have hlen : q = [] ↔ q.length = 0 := List.length_eq_zero.symm
  constructor
  · intro hm
    rw [hm] at hc
    simp only [SIZE_MOD] at hc hl hmem
    simp at hc
    have he : s.active_tasks = q.length + busy s := by omega
    refine ⟨he, ?_⟩
    rw [hlen]; omega
  · intro i hw
    have hb : 0 < busy s := busy_pos hw rfl
    have hq1 : s.queue_mutex = true → 0 < q.length := fun hm =>
      List.length_pos.2 (hcs hm)
    simp only [SIZE_MOD] at hc hl hmem ⊢
    split_ifs at hc with hm
    · have := hq1 hm
      omega
    · omega

theorem run_trans {a b c : State Task} :
    ∀ (tr1 tr2 : List (Step Task)), run a tr1 = some b → run b tr2 = some c →
      run a (tr1 ++ tr2) = some c := by
  intro tr1
  induction tr1 generalizing a with
  | nil => intro tr2 h1 h2; cases h1; exact h2
  | cons e es ih =>
    intro tr2 h1 h2
    obtain ⟨m, hm1, hm2⟩ := run_cons h1
    rw [List.cons_append]
    unfold run
    rw [hm1]
    exact ih tr2 hm2 h2

/-- When a call of `wait_for_completion` returns there are `n` workers and
each has left its loop. -/
theorem post_drain_facts {n : Nat} {tr : List (Step Task)} {s : State Task}
    (h : run (init n) tr = some s) (hret : 0 < s.returns) :
    s.workers.length = n ∧ ∀ i : Nat, i < n → s.workers[i]? = some WorkerPc.exited := by
  have inv := inv_reachable h
  have hn : s.thread_count = n := (run_static _ h).1
  have hlen : s.workers.length = n := by rw [inv.drain.len_w, hn]
  exact ⟨hlen, fun i hi => inv.drain.joined_exited i
    (inv.drain.returned hret i (by rw [hn]; exact hi))⟩

/-- C5. Serial executor at size 1: with one worker the executed tasks are a
leading segment of the dequeued tasks, which are a leading segment of the
submitted tasks; at most one dequeued task is not yet executed; and whenever
the worker dequeues a task `B`, every task submitted before `B` has already
been executed, in submission order. -/
theorem serial_executor (tr : List (Step Task)) (s : State Task)
    (h : run (init 1) tr = some s) :
    s.executed <+: s.dequeued ∧ s.dequeued <+: s.submitted ∧
    s.dequeued.length ≤ s.executed.length + 1 ∧
    (∀ (i : Nat) (s1 : State Task), worker_thread_take s i = some s1 →
      ∃ B rest, s.submitted = s.executed ++ B :: rest ∧ s1.dequeued = s.executed ++ [B]) := by
  have inv := inv_reachable h
  have hlen : s.workers.length = 1 := by
    rw [inv.drain.len_w, (run_static tr h).1]; rfl
  have hser := inv.log.serial hlen
  refine ⟨⟨_, hser.symm⟩, ⟨_, inv.queue.fifo.symm⟩, ?_, ?_⟩
  · have : (held s).length ≤ s.workers.length := List.length_filterMap_le _ _
    rw [hser, List.length_append]
    omega
  · intro i s1 hs1
    obtain ⟨_, p, hp, hd⟩ := queueInv_worker_take inv.queue hs1
    obtain ⟨hw, _⟩ := worker_take_spec hs1
    have hh := (held_set_single (x := (WorkerPc.exited : WorkerPc Task)) hw hlen).1
    have hde : s.dequeued = s.executed := by
      rw [hser, hh]; simp [WorkerPc.heldTask]
    refine ⟨p.2, (queue_after [] tr).tail.map Prod.snd, ?_, by rw [hd, hde]⟩
    have hf := inv.queue.fifo
    rw [hp, hde] at hf
    simpa using hf

/-- C3 as amended. At the moment a call of `wait_for_completion` returns,
`active_tasks` is 0, `stop_flag` is true, no worker is busy and each of the
`thread_count` workers has left its loop; the queue is empty (`head` and
`tail` null) provided no producer is inside the critical section of `enqueue`
at that moment and the queue is shorter than `2^64`. -/
theorem post_drain_state (n : Nat) (tr : List (Step Task)) (s : State Task)
    (h : run (init n) (tr ++ [Step.drain_return]) = some s) :
    s.active_tasks = 0 ∧ s.stop_flag = true ∧ busy s = 0 ∧ s.workers.length = n ∧
    (∀ i : Nat, i < n → s.workers[i]? = some WorkerPc.exited) ∧
    (s.queue_mutex = false → ∀ q : List (Addr × Task), IsQueue s.heap s.head q →
      q.length < SIZE_MOD → s.head = none ∧ s.tail = none) := by
  obtain ⟨s0, h0, h1⟩ := run_append tr [Step.drain_return] h
  have inv0 := inv_reachable h0
  have inv := inv_reachable h
  have hn : s.thread_count = n := (run_static _ h).1
  obtain ⟨i, hd, _, hs⟩ := drain_return_spec (run_single h1)
  have hret : 0 < s.returns := by rw [hs]; exact Nat.succ_pos _
  have hact : s.active_tasks = 0 := by
    rw [hs]
    exact inv0.drain.drained (inv0.drain.mutex_pc.2 (by rw [hd]; simp))
  have hlen : s.workers.length = n := by rw [inv.drain.len_w, hn]
  have hex : ∀ i : Nat, i < s.workers.length → s.workers[i]? = some WorkerPc.exited :=
    fun i hi => inv.drain.joined_exited i
      (inv.drain.returned hret i (by rw [← inv.drain.len_w]; exact hi))
  have hbusy : busy s = 0 := countP_eq_zero_of_all _ _ WorkerPc.exited rfl hex
  refine ⟨hact, inv.drain.stop_of_return hret, hbusy, hlen,
    fun i hi => hex i (by rw [hlen]; exact hi), ?_⟩
  intro hm q hq hql
  have hc := inv.count.counter
  have hq0 : q = [] := by
    have hqa : queue_after [] (tr ++ [Step.drain_return]) = q :=
      isQueue_unique _ _ _ inv.queue.chain hq
    rw [hqa, hm, hact, hbusy] at hc
    simp only [SIZE_MOD] at hc hql
    simp at hc
    exact List.length_eq_zero.1 (by omega)
  have hchain := inv.queue.chain
  have hqa : queue_after [] (tr ++ [Step.drain_return]) = q :=
    isQueue_unique _ _ _ inv.queue.chain hq
  have htail := inv.queue.tail_eq
  rw [hqa, hq0] at htail
  exact ⟨(isQueue_head_none_iff hq).2 hq0, by simpa using htail⟩

theorem join_loop_skips (s : State Task)
    (hj : ∀ j : Nat, j < s.thread_count → s.joinable[j]? = some false) :
    ∀ (k i : Nat), i + k = s.thread_count →
      run (at_join s i) (List.replicate k Step.drain_join ++ [Step.drain_return]) =
        some { s with
          state_mutex := false
          stop_flag := true
          drain := DrainPc.outside
          returns := s.returns + 1 }
  | 0, i, hi => by
    have hlt : ¬ i < s.thread_count := by omega
    simp [run, step, wait_for_completion_return, at_join, hlt]
  | k + 1, i, hi => by
    have hlt : i < s.thread_count := by omega
    have hstep : step (at_join s i) Step.drain_join = some (at_join s (i + 1)) := by
      simp [step, wait_for_completion_join, at_join, hlt, hj i hlt]
    rw [List.replicate_succ, List.cons_append]
    unfold run
    rw [hstep]
    exact join_loop_skips s hj k (i + 1) (by omega)

/-- Joins never repeat, the steps of a call on a drained pool change
nothing, and an uninterrupted call on a drained idle pool returns. -/
theorem double_drain_base (n : Nat) (tr : List (Step Task)) (s : State Task)
    (h : run (init n) tr = some s) :
    s.joins.Nodup ∧
    (0 < s.returns → ∀ s1 : State Task,
      (wait_for_completion_wait s = some s1 ∨ wait_for_completion_stop s = some s1 ∨
        wait_for_completion_join s = some s1 ∨ wait_for_completion_return s = some s1) →
      s1.joins = s.joins ∧ s1.heap = s.heap ∧ s1.head = s.head ∧ s1.tail = s.tail ∧
        s1.active_tasks = s.active_tasks ∧ s1.stop_flag = s.stop_flag) ∧
    (0 < s.returns → s.state_mutex = false → s.queue_mutex = false → s.active_tasks = 0 →
      run s (wait_for_completion_call n) = some { s with returns := s.returns + 1 }) := by
  have inv := inv_reachable h
  have hn : s.thread_count = n := (run_static _ h).1
  refine ⟨inv.drain.joins_nodup, ?_, ?_⟩
  · intro hr s1 hs1
    have hst := inv.drain.stop_of_return hr
    rcases hs1 with h1 | h1 | h1 | h1
    · obtain ⟨_, _, rfl⟩ := drain_wait_spec h1
      exact ⟨rfl, rfl, rfl, rfl, rfl, rfl⟩
    · obtain ⟨_, _, rfl⟩ := drain_stop_spec h1
      exact ⟨rfl, rfl, rfl, rfl, rfl, hst.symm⟩
    · obtain ⟨i, _, hi, ⟨hj, _, rfl⟩ | ⟨_, rfl⟩⟩ := drain_join_spec h1
      · have := inv.drain.returned hr i hi
        rw [hj] at this
        exact absurd this (by simp)
      · exact ⟨rfl, rfl, rfl, rfl, rfl, rfl⟩
    · obtain ⟨i, _, _, rfl⟩ := drain_return_spec h1
      exact ⟨rfl, rfl, rfl, rfl, rfl, rfl⟩
  · intro hr hsm hqm ha
    have hst := inv.drain.stop_of_return hr
    have hd : s.drain = DrainPc.outside := by
      by_contra hne
      have := inv.drain.mutex_pc.2 hne
      rw [hsm] at this
      exact absurd this (by simp)
    have h1 : step s Step.drain_wait =
        some { s with state_mutex := true, drain := DrainPc.stopping } := by
      simp [step, wait_for_completion_wait, hsm, ha]
    have h2 : step { s with state_mutex := true, drain := DrainPc.stopping } Step.drain_stop =
        some (at_join s 0) := by
      simp [step, wait_for_completion_stop, hqm, at_join]
    have h3 := join_loop_skips s (inv.drain.returned hr) n 0 (by omega)
    unfold wait_for_completion_call
    simp only [List.cons_append, List.nil_append, List.append_assoc]
    unfold run
    rw [h1]
    simp only []
    unfold run
    rw [h2]
    simp only []
    rw [h3]
    congr 1
    cases s
    simp_all

theorem during_join_loop {s : State Task} (hs : Drained s) (k : Nat) :
    ∀ (m i : Nat), m = s.thread_count - i →
      run (during s k (DrainPc.joining i))
        (List.replicate m Step.drain_join ++ [Step.drain_return]) =
        some (during s (k + 1) DrainPc.outside)
  | 0, i, hm => by
    have hlt : ¬ i < s.thread_count := by omega
    simp [run, step, wait_for_completion_return, during, hlt, DrainPc.held, Nat.add_assoc]
  | m + 1, i, hm => by
    have hlt : i < s.thread_count := by omega
    have hstep : step (during s k (DrainPc.joining i)) Step.drain_join =
        some (during s k (DrainPc.joining (i + 1))) := by
      simp [step, wait_for_completion_join, during, hlt, hs.joined i hlt, DrainPc.held]
    rw [List.replicate_succ, List.cons_append]
    unfold run
    rw [hstep]
    exact during_join_loop hs k m (i + 1) (by omega)

theorem during_call_rest {s : State Task} (hs : Drained s) (k : Nat) (d : DrainPc) :
    run (during s k d) (call_rest s.thread_count d) = some (during s (k + 1) DrainPc.outside) := by
  have hj := during_join_loop hs k s.thread_count 0 (by omega)
  have h2 : step (during s k DrainPc.stopping) Step.drain_stop =
      some (during s k (DrainPc.joining 0)) := by
    simp [step, wait_for_completion_stop, during, hs.queue_free, hs.stop, DrainPc.held]
  have h1 : step (during s k DrainPc.outside) Step.drain_wait =
      some (during s k DrainPc.stopping) := by
    simp [step, wait_for_completion_wait, during, hs.idle, DrainPc.held]
  cases d with
  | outside =>
    simp only [call_rest, wait_for_completion_call, List.cons_append, List.nil_append,
      List.append_assoc]
    unfold run
    rw [h1]
    simp only []
    unfold run
    rw [h2]
    exact hj
  | stopping =>
    simp only [call_rest, List.cons_append, List.nil_append, List.append_assoc]
    unfold run
    rw [h2]
    exact hj
  | joining i => exact during_join_loop hs k (s.thread_count - i) i rfl

theorem during_step {s s1 : State Task} (hs : Drained s) {k : Nat} {d : DrainPc}
    {e : Step Task} (he : ∀ a t, e ≠ Step.enqueue_link a t)
    (h : step (during s k d) e = some s1) : ∃ k1 d1, s1 = during s k1 d1 := by
  cases e with
  | enqueue_link a t => exact absurd rfl (he a t)
  | enqueue_count =>
    obtain ⟨hq, _, _⟩ := enqueue_count_spec h
    have : s.queue_mutex = true := hq
    rw [hs.queue_free] at this
    exact absurd this (by simp)
  | drain_wait =>
    obtain ⟨_, _, rfl⟩ := drain_wait_spec h
    exact ⟨k, DrainPc.stopping, rfl⟩
  | drain_stop =>
    obtain ⟨hd, _, rfl⟩ := drain_stop_spec h
    have hd2 : d = DrainPc.stopping := hd
    subst hd2
    refine ⟨k, DrainPc.joining 0, ?_⟩
    simp [during, hs.stop, DrainPc.held]
  | drain_join =>
    obtain ⟨i, hd, hi, ⟨hj, _, _⟩ | ⟨_, rfl⟩⟩ := drain_join_spec h
    · have := hs.joined i hi
      have hj2 : s.joinable[i]? = some true := hj
      rw [hj2] at this
      exact absurd this (by simp)
    · have hd2 : d = DrainPc.joining i := hd
      subst hd2
      exact ⟨k, DrainPc.joining (i + 1), rfl⟩
  | drain_return =>
    obtain ⟨i, _, _, rfl⟩ := drain_return_spec h
    exact ⟨k + 1, DrainPc.outside, rfl⟩
  | worker_take i =>
    obtain ⟨hw, _⟩ := worker_take_spec h
    exact absurd (hs.gone i _ hw) (by simp)
  | worker_exit i =>
    obtain ⟨hw, _⟩ := worker_exit_spec h
    exact absurd (hs.gone i _ hw) (by simp)
  | worker_run i =>
    obtain ⟨t, hw, _⟩ := worker_run_spec h
    exact absurd (hs.gone i _ hw) (by simp)
  | worker_done i =>
    obtain ⟨hw, _⟩ := worker_done_spec h
    exact absurd (hs.gone i _ hw) (by simp)

theorem during_run {s : State Task} (hs : Drained s) :
    ∀ (tr : List (Step Task)) (k : Nat) (d : DrainPc) (s1 : State Task),
      (∀ a t, Step.enqueue_link a t ∉ tr) → run (during s k d) tr = some s1 →
      ∃ k1 d1, s1 = during s k1 d1 := by
  intro tr
  induction tr with
  | nil =>
    intro k d s1 _ h
    exact ⟨k, d, (Option.some.inj h).symm⟩
  | cons e es ih =>
    intro k d s1 he h
    obtain ⟨s2, h1, h2⟩ := run_cons h
    obtain ⟨k2, d2, rfl⟩ := during_step hs (fun a t heq => he a t (by simp [heq])) h1
    exact ih k2 d2 s1 (fun a t hm => he a t (by simp [hm])) h2

theorem during_enabled {s s1 : State Task} (hs : Drained s) {k : Nat} {d : DrainPc}
    {e : Step Task} (h : step (during s k d) e = some s1) :
    (∃ a t, e = Step.enqueue_link a t) ∨ (call_rest s.thread_count d).head? = some e := by
  cases e with
  | enqueue_link a t => exact Or.inl ⟨a, t, rfl⟩
  | enqueue_count =>
    obtain ⟨hq, _, _⟩ := enqueue_count_spec h
    have : s.queue_mutex = true := hq
    rw [hs.queue_free] at this
    exact absurd this (by simp)
  | drain_wait =>
    obtain ⟨hm, _, _⟩ := drain_wait_spec h
    have hm2 : d.held = false := hm
    cases d with
    | outside => exact Or.inr rfl
    | stopping => exact absurd hm2 (by simp [DrainPc.held])
    | joining i => exact absurd hm2 (by simp [DrainPc.held])
  | drain_stop =>
    obtain ⟨hd, _, _⟩ := drain_stop_spec h
    have hd2 : d = DrainPc.stopping := hd
    subst hd2
    exact Or.inr rfl
  | drain_join =>
    obtain ⟨i, hd, hi, _⟩ := drain_join_spec h
    have hd2 : d = DrainPc.joining i := hd
    have hi2 : i < s.thread_count := hi
    subst hd2
    right
    obtain ⟨m, hm⟩ : ∃ m, s.thread_count - i = m + 1 := ⟨s.thread_count - i - 1, by omega⟩
    simp [call_rest, hm, List.replicate_succ]
  | drain_return =>
    obtain ⟨i, hd, hi, _⟩ := drain_return_spec h
    have hd2 : d = DrainPc.joining i := hd
    have hi2 : ¬ i < s.thread_count := hi
    subst hd2
    right
    have hm : s.thread_count - i = 0 := by omega
    simp [call_rest, hm]
  | worker_take i =>
    obtain ⟨hw, _⟩ := worker_take_spec h
    exact absurd (hs.gone i _ hw) (by simp)
  | worker_exit i =>
    obtain ⟨hw, _⟩ := worker_exit_spec h
    exact absurd (hs.gone i _ hw) (by simp)
  | worker_run i =>
    obtain ⟨t, hw, _⟩ := worker_run_spec h
    exact absurd (hs.gone i _ hw) (by simp)
  | worker_done i =>
    obtain ⟨hw, _⟩ := worker_done_spec h
    exact absurd (hs.gone i _ hw) (by simp)

theorem drained_of_returned {n : Nat} {tr : List (Step Task)} {s : State Task}
    (h : run (init n) tr = some s) (hr : 0 < s.returns) (hqm : s.queue_mutex = false)
    (ha : s.active_tasks = 0) : Drained s := by
  have inv := inv_reachable h
  obtain ⟨hlen, hex⟩ := post_drain_facts h hr
  refine ⟨inv.drain.stop_of_return hr, hqm, ha, inv.drain.returned hr, ?_⟩
  intro i w hw
  have hi : i < s.workers.length := (List.getElem?_eq_some_iff.1 hw).1
  have := hex i (by omega)
  rw [hw] at this
  exact Option.some.inj this

/-- C7 as amended. No worker is ever joined twice.  On a pool on which
`wait_for_completion` has returned, no step of a further call calls `join`
or changes the queue, `active_tasks` or `stop_flag`.  When moreover
`state_mutex` and `queue_mutex` are free and `active_tasks` is 0, a further
call that no other thread interrupts runs to its return; and in every
execution from there in which no thread calls `enqueue`, whatever the
interleaving, the state keeps its queue, counter and flag, the only enabled
transition is the next step of the call in progress (of a new call when none
is in progress), and that call runs to its return. -/
theorem double_drain_safe (n : Nat) (tr : List (Step Task)) (s : State Task)
    (h : run (init n) tr = some s) :
    s.joins.Nodup ∧
    (0 < s.returns → ∀ s1 : State Task,
      (wait_for_completion_wait s = some s1 ∨ wait_for_completion_stop s = some s1 ∨
        wait_for_completion_join s = some s1 ∨ wait_for_completion_return s = some s1) →
      s1.joins = s.joins ∧ s1.heap = s.heap ∧ s1.head = s.head ∧ s1.tail = s.tail ∧
        s1.active_tasks = s.active_tasks ∧ s1.stop_flag = s.stop_flag) ∧
    (0 < s.returns → s.state_mutex = false → s.queue_mutex = false → s.active_tasks = 0 →
      run s (wait_for_completion_call n) = some { s with returns := s.returns + 1 }) ∧
    (0 < s.returns → s.state_mutex = false → s.queue_mutex = false → s.active_tasks = 0 →
      ∀ (more : List (Step Task)) (s1 : State Task),
        (∀ a t, Step.enqueue_link a t ∉ more) → run s more = some s1 →
        (s1.joins = s.joins ∧ s1.heap = s.heap ∧ s1.head = s.head ∧ s1.tail = s.tail ∧
          s1.active_tasks = s.active_tasks ∧ s1.stop_flag = s.stop_flag ∧
          s.returns ≤ s1.returns) ∧
        (∀ (e : Step Task) (s2 : State Task), step s1 e = some s2 →
          (∃ a t, e = Step.enqueue_link a t) ∨ (call_rest n s1.drain).head? = some e) ∧
        run s1 (call_rest n s1.drain) = some { s with returns := s1.returns + 1 }) := by
  obtain ⟨h1, h2, h3⟩ := double_drain_base n tr s h
  refine ⟨h1, h2, h3, ?_⟩
  intro hr hsm hqm ha more s1 hmore hrun
  have inv := inv_reachable h
  have hn : s.thread_count = n := (run_static _ h).1
  have hs := drained_of_returned h hr hqm ha
  have hd : s.drain = DrainPc.outside := by
    by_contra hne
    have := inv.drain.mutex_pc.2 hne
    rw [hsm] at this
    exact absurd this (by simp)
  have hbase : during s 0 DrainPc.outside = s := by
    cases s
    simp_all [during, DrainPc.held]
  rw [← hbase] at hrun
  obtain ⟨k1, d1, rfl⟩ := during_run hs more 0 DrainPc.outside s1 hmore hrun
  refine ⟨⟨rfl, rfl, rfl, rfl, rfl, rfl, Nat.le_add_right _ _⟩, ?_, ?_⟩
  · intro e s2 he
    have := during_enabled hs he
    rw [hn] at this
    exact this
  · have := during_call_rest hs k1 d1
    rw [hn] at this
    show run (during s k1 d1) (call_rest n d1) = _
    rw [this]
    congr 1
    cases s
    simp_all [during, DrainPc.held, Nat.add_assoc]

theorem exists_exited_of_set {workers : List (WorkerPc Task)} {i : Nat} {x : WorkerPc Task}
    (hx : x ≠ WorkerPc.exited)
    (h : ∃ j : Nat, (workers.set i x)[j]? = some WorkerPc.exited) :
    ∃ j : Nat, workers[j]? = some WorkerPc.exited := by
  obtain ⟨j, hj⟩ := h
  rw [List.getElem?_set] at hj
  split at hj
  · split at hj
    · exact absurd (Option.some.inj hj) hx
    · exact absurd hj (by simp)
  · exact ⟨j, hj⟩

theorem exitedEmpty_step {s s1 : State Task} {e : Step Task} (p : ExitedEmpty s)
    (he : ∀ a t, e ≠ Step.enqueue_link a t) (h : step s e = some s1) : ExitedEmpty s1 := by
  cases e with
  | enqueue_link a t => exact absurd rfl (he a t)
  | enqueue_count => obtain ⟨_, _, rfl⟩ := enqueue_count_spec h; exact p
  | drain_wait => obtain ⟨_, _, rfl⟩ := drain_wait_spec h; exact p
  | drain_stop => obtain ⟨_, _, rfl⟩ := drain_stop_spec h; exact p
  | drain_join =>
    obtain ⟨i, _, _, ⟨_, _, rfl⟩ | ⟨_, rfl⟩⟩ := drain_join_spec h
    · exact p
    · exact p
  | drain_return => obtain ⟨i, _, _, rfl⟩ := drain_return_spec h; exact p
  | worker_take i =>
    obtain ⟨_, _, a, node, hh, _, rfl⟩ := worker_take_spec h
    intro hex
    have := p (exists_exited_of_set (by simp) hex)
    rw [hh] at this
    exact absurd this (by simp)
  | worker_exit i =>
    obtain ⟨_, _, hh, _, rfl⟩ := worker_exit_spec h
    exact fun _ => hh
  | worker_run i =>
    obtain ⟨t, _, rfl⟩ := worker_run_spec h
    exact fun hex => p (exists_exited_of_set (by simp) hex)
  | worker_done i =>
    obtain ⟨_, _, rfl⟩ := worker_done_spec h
    exact fun hex => p (exists_exited_of_set (by simp) hex)

theorem exitedEmpty_run {s s1 : State Task} :
    ∀ (tr : List (Step Task)), ExitedEmpty s → (∀ a t, Step.enqueue_link a t ∉ tr) →
      run s tr = some s1 → ExitedEmpty s1 := by
  intro tr
  induction tr generalizing s with
  | nil =>
    intro p _ h
    have : s = s1 := Option.some.inj h
    rw [← this]; exact p
  | cons e es ih =>
    intro p he h
    obtain ⟨s2, h1, h2⟩ := run_cons h
    refine ih (exitedEmpty_step p (fun a t heq => he a t (by simp [heq])) h1)
      (fun a t hm => he a t (by simp [hm])) h2

theorem enqueued_tasks_nil :
    ∀ (tr : List (Step Task)), (∀ a t, Step.enqueue_link a t ∉ tr) → enqueued_tasks tr = []
  | [], _ => rfl
  | e :: es, he => by
    have ih := enqueued_tasks_nil es (fun a t hm => he a t (by simp [hm]))
    rw [enqueued_tasks_cons, ih]
    cases e with
    | enqueue_link a t => exact absurd (by simp) (he a t)
    | _ => rfl

theorem counter_foldl {W : Type} (exec : Task → W → W) (counter : W → Nat) :
    ∀ (l : List Task) (w : W), (∀ t, t ∈ l → ∀ w, counter (exec t w) = counter w + 1) →
      counter (l.foldl (fun w t => exec t w) w) = counter w + l.length
  | [], w, _ => rfl
  | t :: l, w, h => by
    rw [List.foldl_cons, counter_foldl exec counter l (exec t w)
      (fun u hu => h u (by simp [hu])), h t (by simp), List.length_cons]
    omega

/-- C4. Exactly-once execution: on a pool of `n ≥ 1` workers, let `pre` be a
schedule in which `K` tasks are passed to `enqueue` and after which no call
of `wait_for_completion` has got past its wait, and let `post` be any
continuation without further `enqueue` at whose end a `wait_for_completion`
call returns.  Then the executed tasks are a permutation of the `K` submitted
ones, and if every submitted task adds 1 to a counter of the shared state the
counter has grown by exactly `K`. -/
theorem exactly_once_execution (n K : Nat) (pre post : List (Step Task)) (s0 s : State Task)
    (hn : 1 ≤ n) (hpre : run (init n) pre = some s0)
    (hK : (enqueued_tasks pre).length = K)
    (hfresh : s0.returns = 0 ∧ s0.state_mutex = false)
    (hpost : ∀ a t, Step.enqueue_link a t ∉ post)
    (hret : run s0 (post ++ [Step.drain_return]) = some s) :
    s.submitted = enqueued_tasks pre ∧ List.Perm s.executed s.submitted ∧
    ∀ (W : Type) (exec : Task → W → W) (counter : W → Nat) (w0 : W),
      (∀ t, t ∈ enqueued_tasks pre → ∀ w, counter (exec t w) = counter w + 1) →
      counter (world exec w0 s) = counter w0 + K := by
  have inv0 := inv_reachable hpre
  have hsub0 : s0.submitted = enqueued_tasks pre := by simpa [init] using (run_static pre hpre).2
  have hpost2 : ∀ a t, Step.enqueue_link a t ∉ post ++ [Step.drain_return] := by
    intro a t hm
    rcases List.mem_append.1 hm with hm | hm
    · exact hpost a t hm
    · simp at hm
  have hsub : s.submitted = enqueued_tasks pre := by
    rw [(run_static _ hret).2, enqueued_tasks_nil _ hpost2, List.append_nil, hsub0]
  -- no worker has exited when `pre` ends
  have hstop0 : s0.stop_flag ≠ true := by
    intro hst
    rcases inv0.drain.stop_origin hst with ⟨i, hi⟩ | hr
    · have := inv0.drain.mutex_pc.2 (by rw [hi]; simp)
      rw [hfresh.2] at this
      exact absurd this (by simp)
    · omega
  have hp0 : ExitedEmpty s0 := fun ⟨i, hi⟩ => absurd (inv0.drain.exited_stop i hi) hstop0
  have hp : ExitedEmpty s := exitedEmpty_run _ hp0 hpost2 hret
  -- the state at the return
  have hall : run (init n) (pre ++ (post ++ [Step.drain_return])) = some s :=
    run_trans _ _ hpre hret
  have hretpos : 0 < s.returns := by
    obtain ⟨m, _, hm⟩ := run_append post [Step.drain_return] hret
    obtain ⟨i, _, _, hs⟩ := drain_return_spec (run_single hm)
    rw [hs]; exact Nat.succ_pos _
  have hfin := post_drain_facts hall hretpos
  obtain ⟨hlen, hex⟩ := hfin
  have inv := inv_reachable hall
  have hhead : s.head = none := hp ⟨0, hex 0 (by omega)⟩
  have hq : queue_after [] (pre ++ (post ++ [Step.drain_return])) = [] :=
    (isQueue_head_none_iff inv.queue.chain).1 hhead
  have hdeq : s.dequeued = s.submitted := by
    have := inv.queue.fifo
    rw [hq] at this
    simpa using this.symm
  have hheld : held s = [] :=
    filterMap_eq_nil_of_all _ _ WorkerPc.exited rfl (fun i hi => hex i (by omega))
  have hperm : List.Perm s.executed s.submitted := by
    have := inv.log.perm
    rw [hheld, List.append_nil, hdeq] at this
    exact this.symm
  refine ⟨hsub, hperm, ?_⟩
  intro W exec counter w0 hinc
  unfold world
  rw [counter_foldl exec counter s.executed w0
    (fun t ht => hinc t (by rw [← hsub]; exact hperm.mem_iff.1 ht)), hperm.length_eq, hsub, hK]

theorem stalled_stuck (n : Nat) (a : Addr) (t : Task) (e : Step Task) :
    step (stalled n a t) e = none := by
  cases e with
  | enqueue_link b u => simp [step, enqueue_link, stalled]
  | enqueue_count => simp [step, enqueue_count, stalled]
  | drain_wait => simp [step, wait_for_completion_wait, stalled]
  | drain_stop => simp [step, wait_for_completion_stop, stalled]
  | drain_join => simp [step, wait_for_completion_join, stalled]
  | drain_return => simp [step, wait_for_completion_return, stalled]
  | worker_take i =>
    simp only [step, worker_thread_take, stalled]
    split
    · rename_i h1 h2 h3; exact absurd h2 (by simp)
    · rfl
  | worker_exit i =>
    simp only [step, worker_thread_exit, stalled]
    split
    · rename_i h1 h2 h3 h4; exact absurd h2 (by simp)
    · rfl
  | worker_run i =>
    simp only [step, worker_thread_run, stalled, init]
    split
    · rename_i task h1
      rw [List.getElem?_replicate] at h1
      split at h1 <;> simp at h1
    · rfl
  | worker_done i =>
    simp only [step, worker_thread_done, stalled]
    split
    · rename_i h1 h2; exact absurd h2 (by simp)
    · rfl

/-- C9. Racy submission stalls the drain: on a pool of any size, let one
thread run `enqueue` up to its second lock and another thread pass the wait
of `wait_for_completion`.  Both steps are enabled; in the state they reach no
transition of any thread is enabled, so every continuation leaves the
submitted task unexecuted and `wait_for_completion` not returned. -/
theorem racy_submission_stalls (n : Nat) (a : Addr) (t : Task) :
    run (init n) [Step.enqueue_link a t, Step.drain_wait] = some (stalled n a t) ∧
    (stalled n a t).submitted = [t] ∧
    (∀ e, step (stalled n a t) e = none) ∧
    (∀ (tr : List (Step Task)) (s : State Task), run (stalled n a t) tr = some s →
      s.executed = [] ∧ s.returns = 0 ∧ s.drain = DrainPc.stopping) := by
  refine ⟨?_, rfl, stalled_stuck n a t, ?_⟩
  · simp [run, step, enqueue_link, wait_for_completion_wait, init, stalled]
  · intro tr s h
    cases tr with
    | nil =>
      have : stalled n a t = s := Option.some.inj h
      rw [← this]
      exact ⟨rfl, rfl, rfl⟩
    | cons e es =>
      obtain ⟨s1, h1, _⟩ := run_cons h
      rw [stalled_stuck] at h1
      exact absurd h1 (by simp)

/-- C6 as amended. Constructing with `num_threads = 0` does not fail: it
yields a pool with `thread_count = 0`, no worker threads, an empty queue, the
flag false and the counter 0. -/
theorem zero_workers_constructed :
    (ThreadPool 0 : Constructed Task) = Constructed.pool (init 0) ∧
    (init 0 : State Task).thread_count = 0 ∧ (init 0 : State Task).workers = [] ∧
    (init 0 : State Task).joinable = [] ∧ (init 0 : State Task).head = none ∧
    (init 0 : State Task).tail = none ∧ (init 0 : State Task).stop_flag = false ∧
    (init 0 : State Task).active_tasks = 0 :=
  ⟨rfl, rfl, rfl, rfl, rfl, rfl, rfl, rfl⟩

/-- C6 fails as stated: `ThreadPool(0)` is not a configuration error. -/
theorem zero_workers_not_rejected :
    (ThreadPool 0 : Constructed Nat) ≠ Constructed.configuration_error := by
  simp [ThreadPool]

/-- C3 fails as stated: a producer that links its node while the drain is
joining leaves `head` and `tail` non-null at the moment the drain returns. -/
theorem post_drain_queue_not_empty :
    ∃ s : State Nat, run (init 1) (racing_schedule ++ [Step.drain_return]) = some s ∧
      s.returns = 1 ∧ s.head = some 5 ∧ s.tail = some 5 ∧ s.active_tasks = 0 ∧
      s.workers = [WorkerPc.exited] :=
  ⟨_, rfl, rfl, rfl, rfl, rfl, rfl⟩

/-- C7 fails as stated: after a task is submitted to a drained pool, a second
call of `wait_for_completion` cannot pass its wait (`active_tasks` is 1), and
the only transitions left are further `enqueue` calls.  And on a drained idle
pool, a producer that links a node after the second call has passed its wait
leaves no transition enabled at all. -/
theorem second_drain_blocks :
    run (init 1) late_schedule = some late_state ∧ late_state.returns = 1 ∧
    late_state.state_mutex = false ∧ late_state.queue_mutex = false ∧
    late_state.active_tasks = 1 ∧ late_state.workers = [WorkerPc.exited] ∧
    run late_state (wait_for_completion_call 1) = none ∧
    (∀ e : Step Nat, step late_state e ≠ none → ∃ a t, e = Step.enqueue_link a t) ∧
    run demo_end [Step.drain_wait, Step.enqueue_link 7 90] = some racing_second ∧
    racing_second.returns = 1 ∧ (∀ e : Step Nat, step racing_second e = none) := by
  refine ⟨rfl, rfl, rfl, rfl, rfl, rfl, rfl, ?_, rfl, rfl, ?_⟩
  · intro e he
    cases e with
    | enqueue_link a t => exact ⟨a, t, rfl⟩
    | enqueue_count => exact absurd rfl he
    | drain_wait => exact absurd rfl he
    | drain_stop => exact absurd rfl he
    | drain_join => exact absurd rfl he
    | drain_return => exact absurd rfl he
    | worker_take i => cases i <;> exact absurd rfl he
    | worker_exit i => cases i <;> exact absurd rfl he
    | worker_run i => cases i <;> exact absurd rfl he
    | worker_done i => cases i <;> exact absurd rfl he
  · intro e
    cases e with
    | enqueue_link a t => rfl
    | enqueue_count => rfl
    | drain_wait => rfl
    | drain_stop => rfl
    | drain_join => rfl
    | drain_return => rfl
    | worker_take i => cases i <;> rfl
    | worker_exit i => cases i <;> rfl
    | worker_run i => cases i <;> rfl
    | worker_done i => cases i <;> rfl

theorem fifo_order_witness :
    run (init 1) demo_pre = some demo_mid ∧
    demo_mid.submitted = enqueued_tasks demo_pre ∧ demo_mid.dequeued <+: demo_mid.submitted :=
  ⟨rfl, fifo_order 1 demo_pre demo_mid rfl⟩

theorem queue_structure_witness :
    run (init 1) demo_pre = some demo_mid ∧ (demo_mid.head = none ↔ demo_mid.tail = none) :=
  ⟨rfl, (queue_structure 1 demo_pre demo_mid rfl).1⟩

theorem active_tasks_counts_witness :
    (run (init 1) demo_pre = some demo_mid ∧ IsQueue demo_mid.heap demo_mid.head [(6, 80)] ∧
      [(6, 80)].length + busy demo_mid < SIZE_MOD) ∧
    (demo_mid.queue_mutex = false →
      demo_mid.active_tasks = [(6, 80)].length + busy demo_mid ∧
        (demo_mid.active_tasks = 0 ↔ [(6, 80)] = ([] : List (Addr × Nat)) ∧ busy demo_mid = 0)) :=
  ⟨⟨rfl, ⟨rfl, none, rfl, rfl⟩, by decide⟩,
    (active_tasks_counts 1 demo_pre demo_mid [(6, 80)] rfl ⟨rfl, none, rfl, rfl⟩
      (by decide)).1⟩

theorem serial_executor_witness :
    run (init 1) demo_submit = some demo_queued ∧
    demo_queued.executed <+: demo_queued.dequeued ∧
    demo_queued.dequeued <+: demo_queued.submitted ∧
    demo_queued.dequeued.length ≤ demo_queued.executed.length + 1 ∧
    (worker_thread_take demo_queued 0 = some demo_taken →
      ∃ B rest, demo_queued.submitted = demo_queued.executed ++ B :: rest ∧
        demo_taken.dequeued = demo_queued.executed ++ [B]) :=
  ⟨rfl, (serial_executor demo_submit demo_queued rfl).1,
    (serial_executor demo_submit demo_queued rfl).2.1,
    (serial_executor demo_submit demo_queued rfl).2.2.1,
    (serial_executor demo_submit demo_queued rfl).2.2.2 0 demo_taken⟩

theorem post_drain_state_witness :
    run (init 1) ((demo_pre ++ demo_post) ++ [Step.drain_return]) = some demo_end ∧
    demo_end.active_tasks = 0 ∧ demo_end.stop_flag = true ∧ busy demo_end = 0 ∧
    demo_end.workers.length = 1 ∧
    (∀ i : Nat, i < 1 → demo_end.workers[i]? = some WorkerPc.exited) ∧
    demo_end.head = none ∧ demo_end.tail = none :=
  ⟨rfl, (post_drain_state 1 (demo_pre ++ demo_post) demo_end rfl).1,
    (post_drain_state 1 (demo_pre ++ demo_post) demo_end rfl).2.1,
    (post_drain_state 1 (demo_pre ++ demo_post) demo_end rfl).2.2.1,
    (post_drain_state 1 (demo_pre ++ demo_post) demo_end rfl).2.2.2.1,
    (post_drain_state 1 (demo_pre ++ demo_post) demo_end rfl).2.2.2.2.1,
    (post_drain_state 1 (demo_pre ++ demo_post) demo_end rfl).2.2.2.2.2 rfl [] rfl
      (by decide)⟩

theorem double_drain_safe_witness :
    run (init 1) ((demo_pre ++ demo_post) ++ [Step.drain_return]) = some demo_end ∧
    demo_end.joins.Nodup ∧
    run demo_end (wait_for_completion_call 1) =
      some { demo_end with returns := demo_end.returns + 1 } ∧
    (run demo_end [Step.drain_wait] = some demo_called →
      demo_called.head = demo_end.head ∧
      run demo_called (call_rest 1 demo_called.drain) =
        some { demo_end with returns := demo_called.returns + 1 }) :=
  ⟨rfl,
    (double_drain_safe 1 ((demo_pre ++ demo_post) ++ [Step.drain_return]) demo_end
      (by rfl)).1,
    (double_drain_safe 1 ((demo_pre ++ demo_post) ++ [Step.drain_return]) demo_end
      (by rfl)).2.2.1 (by decide) rfl rfl rfl,
    fun hc =>
      ⟨((double_drain_safe 1 ((demo_pre ++ demo_post) ++ [Step.drain_return]) demo_end
        (by rfl)).2.2.2 (by decide) rfl rfl rfl [Step.drain_wait] demo_called
        (by simp) hc).1.2.2.1,
      ((double_drain_safe 1 ((demo_pre ++ demo_post) ++ [Step.drain_return]) demo_end
        (by rfl)).2.2.2 (by decide) rfl rfl rfl [Step.drain_wait] demo_called
        (by simp) hc).2.2⟩⟩

theorem exactly_once_execution_witness :
    (1 ≤ 1 ∧ run (init 1) demo_pre = some demo_mid ∧ (enqueued_tasks demo_pre).length = 2 ∧
      (demo_mid.returns = 0 ∧ demo_mid.state_mutex = false) ∧
      (∀ a t, Step.enqueue_link a t ∉ demo_post) ∧
      run demo_mid (demo_post ++ [Step.drain_return]) = some demo_end) ∧
    demo_end.submitted = enqueued_tasks demo_pre ∧
    List.Perm demo_end.executed demo_end.submitted ∧
    world (fun (_ : Nat) (w : Nat) => w + 1) 0 demo_end = 0 + 2 :=
  ⟨⟨by decide, rfl, rfl, ⟨rfl, rfl⟩, by simp [demo_post], rfl⟩,
    (exactly_once_execution 1 2 demo_pre demo_post demo_mid demo_end (by decide) rfl rfl
      ⟨rfl, rfl⟩ (by simp [demo_post]) rfl).1,
    (exactly_once_execution 1 2 demo_pre demo_post demo_mid demo_end (by decide) rfl rfl
      ⟨rfl, rfl⟩ (by simp [demo_post]) rfl).2.1,
    (exactly_once_execution 1 2 demo_pre demo_post demo_mid demo_end (by decide) rfl rfl
      ⟨rfl, rfl⟩ (by simp [demo_post]) rfl).2.2 Nat (fun _ w => w + 1) id 0
      (fun _ _ _ => rfl)⟩

end Tread_pool
